import Mathlib

/-!
# datalogic-rs — verification of the spec claims against the source

Shallow embedding of the JSONLogic engine in `src/`:
* the value model and its predicates (`src/value/{truthy,convert,compare}.rs`),
* the stack VM (`src/vm_stack/mod.rs`),
* the parser (`src/parser/jsonlogic.rs`),
* the bytecode compiler (`src/compiler/{mod,lower,const_pool,types}.rs`),
* the tree-walking evaluator used for constant folding
  (`src/engine/stack.rs`, `src/operators/*.rs`, reached from
  `src/core/mod.rs::parser_value`).

Modelling conventions, used throughout:
* Rust `i64` is modelled as `Int`.  No claim in this development exercises
  64-bit overflow.
* Rust `f64` is modelled by `FP`: an exact rational, `+inf`, `-inf` or `NaN`.
  IEEE special-value behaviour (NaN ≠ NaN, NaN incomparable, x/0 = ±inf,
  `fract` of a non-finite value is NaN) is modelled exactly; finite arithmetic
  is exact instead of rounded.  Every concrete float used in a theorem below is
  a small integer-valued double, where rounding does not occur.
* The `DataValue` type itself and its derived trait impls (`PartialEq`, the
  arithmetic `Add/Sub/Mul/Div` operators, `get`, `get_index`) come from the
  external `datavalue-rs` crate, which is not part of `src/`.  Those are
  modelled from the spec (§3, §4.1) and are marked `Modelled from the spec:`
  in their doc comments.
-/

namespace Datalogic

/-! ## Floating point model -/

/-- Model of Rust `f64`: an exact rational, an infinity, or NaN. -/
inductive FP where
  | finite (q : ℚ)
  | inf
  | neginf
  | nan
deriving DecidableEq, Repr

/-- IEEE `==` on `f64`: NaN is equal to nothing (including itself). -/
def feq : FP → FP → Bool
  | .finite a, .finite b => a == b
  | .inf, .inf => true
  | .neginf, .neginf => true
  | _, _ => false

/-- Ordering on rationals (`if lt then Less else if eq then Equal else Greater`). -/
def qcmp (a b : ℚ) : Ordering :=
  if a < b then .lt else if a = b then .eq else .gt

/-- IEEE `partial_cmp` on `f64`: `None` whenever either side is NaN. -/
def fcmp : FP → FP → Option Ordering
  | .nan, _ => none
  | _, .nan => none
  | .neginf, .neginf => some .eq
  | .neginf, _ => some .lt
  | _, .neginf => some .gt
  | .inf, .inf => some .eq
  | .inf, _ => some .gt
  | _, .inf => some .lt
  | .finite a, .finite b => some (qcmp a b)

/-- IEEE `<` on `f64`: false whenever either side is NaN. -/
def flt (a b : FP) : Bool := fcmp a b == some .lt

/-- IEEE subtraction. -/
def fsub : FP → FP → FP
  | .nan, _ => .nan
  | _, .nan => .nan
  | .finite a, .finite b => .finite (a - b)
  | .inf, .inf => .nan
  | .inf, _ => .inf
  | .neginf, .neginf => .nan
  | .neginf, _ => .neginf
  | .finite _, .inf => .neginf
  | .finite _, .neginf => .inf

/-- IEEE addition. -/
def fadd : FP → FP → FP
  | .nan, _ => .nan
  | _, .nan => .nan
  | .finite a, .finite b => .finite (a + b)
  | .inf, .neginf => .nan
  | .neginf, .inf => .nan
  | .inf, _ => .inf
  | _, .inf => .inf
  | .neginf, _ => .neginf
  | _, .neginf => .neginf

/-- IEEE multiplication (sign handling only where a claim could reach it). -/
def fmul : FP → FP → FP
  | .nan, _ => .nan
  | _, .nan => .nan
  | .finite a, .finite b => .finite (a * b)
  | .inf, .finite b => if b > 0 then .inf else if b < 0 then .neginf else .nan
  | .finite a, .inf => if a > 0 then .inf else if a < 0 then .neginf else .nan
  | .neginf, .finite b => if b > 0 then .neginf else if b < 0 then .inf else .nan
  | .finite a, .neginf => if a > 0 then .neginf else if a < 0 then .inf else .nan
  | .inf, .inf => .inf
  | .neginf, .neginf => .inf
  | .inf, .neginf => .neginf
  | .neginf, .inf => .neginf

/-- IEEE division: a nonzero finite number divided by zero is a signed
infinity, `0.0/0.0` is NaN. -/
def fdiv : FP → FP → FP
  | .nan, _ => .nan
  | _, .nan => .nan
  | .finite a, .finite b =>
      if b = 0 then
        (if a > 0 then .inf else if a < 0 then .neginf else .nan)
      else .finite (a / b)
  | .finite _, .inf => .finite 0
  | .finite _, .neginf => .finite 0
  | .inf, .finite b => if b ≥ 0 then .inf else .neginf
  | .neginf, .finite b => if b ≥ 0 then .neginf else .inf
  | _, _ => .nan

/-- IEEE remainder `%` on doubles: NaN for non-finite lhs or zero rhs. -/
def fmod : FP → FP → FP
  | .finite a, .finite b =>
      if b = 0 then .nan
      else .finite (a - b * ((a / b).num.tdiv (a / b).den))
  | _, _ => .nan

/-- Truncation toward zero of a rational, as an integer (`f64::trunc`). -/
def qtrunc (q : ℚ) : Int := q.num.tdiv q.den

/-- `f64::fract`: `self - self.trunc()`; NaN for non-finite input. -/
def ffract : FP → FP
  | .finite q => .finite (q - qtrunc q)
  | _ => .nan

/-- `f64::abs`. -/
def fabs : FP → FP
  | .finite q => .finite |q|
  | .inf => .inf
  | .neginf => .inf
  | .nan => .nan

/-- `f64::EPSILON` = 2⁻⁵². -/
def epsFP : FP := .finite (1 / 4503599627370496)

/-- `f64 as i64` saturating cast of a model float (`f64::trunc` then clamp;
NaN maps to 0 as in Rust). -/
def fpToI64 : FP → Int
  | .finite q =>
      let t := qtrunc q
      if t > (2 ^ 63 - 1 : Int) then 2 ^ 63 - 1
      else if t < (-(2 ^ 63) : Int) then -(2 ^ 63)
      else t
  | .inf => 2 ^ 63 - 1
  | .neginf => -(2 ^ 63)
  | .nan => 0

/-! ## String parsing helpers (Rust `str::parse`) -/

/-- Digit value of a character, if it is `0`..`9`. -/
def digitVal (c : Char) : Option Nat :=
  if c.isDigit then some (c.toNat - '0'.toNat) else none

/-- Fold a digit list into a natural number; `none` on any non-digit. -/
def digitsToNat : List Char → Option Nat
  | [] => some 0
  | c :: cs => do
      let d ← digitVal c
      let rest ← digitsToNat cs
      pure (d * 10 ^ cs.length + rest)

/-- Model of Rust `str::parse::<i64>()`: optional sign, one or more digits,
value within the `i64` range. -/
def parseI64 (s : String) : Option Int :=
  let cs := s.data
  let (neg, ds) : Bool × List Char :=
    match cs with
    | '-' :: rest => (true, rest)
    | '+' :: rest => (false, rest)
    | rest => (false, rest)
  if ds.isEmpty then none
  else match digitsToNat ds with
    | none => none
    | some n =>
        let v : Int := if neg then -(n : Int) else (n : Int)
        if v < -(2 ^ 63) ∨ v > 2 ^ 63 - 1 then none else some v

/-- All characters are digits. -/
def allDigits (cs : List Char) : Bool := cs.all (·.isDigit)

/-- Split a character list at the first occurrence of a separator character:
helper for `parseF64` (scanning for `e`/`E`/`.`). -/
def splitAtChar (sep : Char) : List Char → Option (List Char × List Char)
  | [] => none
  | c :: cs =>
      if c = sep then some ([], cs)
      else match splitAtChar sep cs with
        | some (l, r) => some (c :: l, r)
        | none => none

/-- Model of Rust `str::parse::<f64>()` on the decimal grammar
`[+|-] (digits [ '.' digits? ] | '.' digits) [ (e|E) [+|-] digits ]`,
plus the special words `inf` / `infinity` / `NaN` (case-insensitive).
The numeric value is kept exact (Rust rounds to the nearest double). -/
def parseF64 (s : String) : Option FP :=
  let cs := s.data
  let (neg, body) : Bool × List Char :=
    match cs with
    | '-' :: rest => (true, rest)
    | '+' :: rest => (false, rest)
    | rest => (false, rest)
  let lower := String.mk (body.map Char.toLower)
  if lower = "inf" ∨ lower = "infinity" then
    some (if neg then .neginf else .inf)
  else if lower = "nan" then
    some .nan
  else
    -- split at the exponent marker, if any
    let (mant, expPart) : List Char × Option (List Char) :=
      match splitAtChar 'e' body with
      | some (m, e) => (m, some e)
      | none =>
        match splitAtChar 'E' body with
        | some (m, e) => (m, some e)
        | none => (body, none)
    -- parse the exponent
    let expVal : Option Int :=
      match expPart with
      | none => some 0
      | some e =>
          let (eneg, eds) : Bool × List Char :=
            match e with
            | '-' :: rest => (true, rest)
            | '+' :: rest => (false, rest)
            | rest => (false, rest)
          if eds.isEmpty ∨ ¬ allDigits eds then none
          else (digitsToNat eds).map (fun n => if eneg then -(n : Int) else (n : Int))
    match expVal with
    | none => none
    | some ex =>
        -- split the mantissa at the decimal point
        let (ip, fp) : List Char × List Char :=
          match splitAtChar '.' mant with
          | some (i, f) => (i, f)
          | none => (mant, [])
        if (ip.isEmpty ∧ fp.isEmpty) ∨ ¬ allDigits ip ∨ ¬ allDigits fp then none
        else match digitsToNat ip, digitsToNat fp with
          | some i, some f =>
              let mag : ℚ := (i : ℚ) + (f : ℚ) / (10 ^ fp.length : ℚ)
              let scaled : ℚ := mag * (10 : ℚ) ^ ex
              some (.finite (if neg then -scaled else scaled))
          | _, _ => none

/-! ## The value model (`DataValue` of datavalue-rs, spec §3) -/

/-- `datavalue_rs::Number`: a tagged `i64` / `f64` union. -/
inductive Num where
  | int (i : Int)
  | float (x : FP)
deriving DecidableEq, Repr

/-- Modelled from the spec: the `DataValue` tagged union of the external
datavalue-rs crate (§3) — null, bool, number, string, array, object,
plus opaque `DateTime`/`Duration` compared by their underlying scalar. -/
inductive DValue where
  | null
  | bool (b : Bool)
  | num (n : Num)
  | str (s : String)
  | arr (elems : List DValue)
  | obj (entries : List (String × DValue))
  | datetime (t : Int)
  | duration (d : Int)
deriving Repr

mutual
/-- Size measure used for termination of the recursive value functions. -/
def dvSize : DValue → Nat
  | .null => 1
  | .bool _ => 3
  | .num _ => 1
  | .str _ => 2
  | .arr l => 2 + dvListSize l
  | .obj l => 1 + dvObjSize l
  | .datetime _ => 1
  | .duration _ => 1

/-- Sum of sizes of a list of values. -/
def dvListSize : List DValue → Nat
  | [] => 0
  | v :: vs => dvSize v + dvListSize vs

/-- Sum of sizes of an object entry list. -/
def dvObjSize : List (String × DValue) → Nat
  | [] => 0
  | (_, v) :: vs => dvSize v + dvObjSize vs
end

/-- Equality on the number union: exact on integers, IEEE on floats, and the
two variants are never equal to each other (derived `PartialEq`). -/
def numEq : Num → Num → Bool
  | .int a, .int b => a == b
  | .float a, .float b => feq a b
  | _, _ => false

mutual
/-- Modelled from the spec: `==` (`PartialEq`) of the external datavalue-rs
`DataValue` — same variant with value equality per variant, element-wise for
arrays and objects (§4.1 "value equality within variant; for arrays/objects,
element-wise"), IEEE equality for floats. -/
def dvEq : DValue → DValue → Bool
  | .null, .null => true
  | .bool a, .bool b => a == b
  | .num a, .num b => numEq a b
  | .str a, .str b => a == b
  | .arr a, .arr b => dvListEq a b
  | .obj a, .obj b => dvObjEq a b
  | .datetime a, .datetime b => a == b
  | .duration a, .duration b => a == b
  | _, _ => false

/-- Element-wise equality of value lists. -/
def dvListEq : List DValue → List DValue → Bool
  | [], [] => true
  | a :: as_, b :: bs => dvEq a b && dvListEq as_ bs
  | _, _ => false

/-- Element-wise equality of object entry lists (keys and values in order). -/
def dvObjEq : List (String × DValue) → List (String × DValue) → Bool
  | [], [] => true
  | (ka, va) :: as_, (kb, vb) :: bs => ka == kb && dvEq va vb && dvObjEq as_ bs
  | _, _ => false
end

/-- Numeric type tag used by `type_order` in `src/value/compare.rs` and,
identically, by `DataValue::get_type` (one tag per variant). -/
def typeOrder : DValue → Nat
  | .null => 0
  | .bool _ => 1
  | .num _ => 2
  | .str _ => 3
  | .arr _ => 4
  | .obj _ => 5
  | .datetime _ => 6
  | .duration _ => 7

/-- Round a natural number to 53-bit precision (round to nearest, ties to
even), the magnitude part of Rust's `i64 as f64` cast.  Numbers up to
`2^53` are representable exactly; above that the value is rounded to the
nearest multiple of `2^(bitlength - 53)`. -/
def roundToF64Nat (n : Nat) : Nat :=
  if n ≤ 2 ^ 53 then n
  else
    let e := n.log2 - 52
    let q := n / 2 ^ e
    let r := n % 2 ^ e
    let half := 2 ^ (e - 1)
    if r < half then q * 2 ^ e
    else if half < r then (q + 1) * 2 ^ e
    else (if q % 2 = 0 then q else q + 1) * 2 ^ e

/-- Rust's `i64 as f64` cast: round the magnitude to the nearest
representable double (every `i64` is finite in `f64` range, so the result
is always finite). -/
def i64ToF64 (i : Int) : FP :=
  if 0 ≤ i then .finite (roundToF64Nat i.toNat : ℚ)
  else .finite (-(roundToF64Nat i.natAbs : ℚ))

/-- The `f64` value of a `Number`: `Integer as f64` rounds to the nearest
double (exact only up to `2^53`). -/
def numToF64 : Num → FP
  | .int i => i64ToF64 i
  | .float x => x

/-! ## `src/value/truthy.rs` -/

/-- `is_truthy` from `src/value/truthy.rs`: null, false, zero/NaN numbers,
empty strings, empty arrays and zero durations are falsy; objects and
date-times are truthy. -/
def is_truthy : DValue → Bool
  | .null => false
  | .bool b => b
  | .num (.int i) => i != 0
  | .num (.float f) => (!feq f (.finite 0)) && (f != FP.nan)
  | .str s => !s.isEmpty
  | .arr items => !items.isEmpty
  | .obj _ => true
  | .datetime _ => true
  | .duration d => !(d == 0)

/-! ## `src/value/convert.rs` -/

/-- `coerce_to_number` from `src/value/convert.rs`: numbers unchanged;
booleans 0/1; strings parsed (i64 first, then f64, else 0; empty → 0);
arrays: empty → 0, singleton → coerce the element, larger → 0;
null / objects / date-times / durations → 0. -/
def coerce_to_number : DValue → DValue
  | .num n => .num n
  | .bool b => if b then .num (.int 1) else .num (.int 0)
  | .str s =>
      if s.isEmpty then .num (.int 0)
      else match parseI64 s with
        | some i => .num (.int i)
        | none => match parseF64 s with
          | some f => .num (.float f)
          | none => .num (.int 0)
  | .arr a =>
      match a with
      | [] => .num (.int 0)
      | [x] => coerce_to_number x
      | _ => .num (.int 0)
  | .null => .num (.int 0)
  | .obj _ => .num (.int 0)
  | .datetime _ => .num (.int 0)
  | .duration _ => .num (.int 0)

/-- `convert_to_number` from `src/value/convert.rs`: a float with zero
fractional part becomes the truncated integer; otherwise same as
`coerce_to_number`. -/
def convert_to_number (v : DValue) : DValue :=
  match v with
  | .num (.int i) => .num (.int i)
  | .num (.float f) =>
      if feq (ffract f) (.finite 0) then .num (.int (fpToI64 f))
      else .num (.float f)
  | _ => coerce_to_number v

/-- `modulo` from `src/value/convert.rs`: integer `%` when both operands are
integers, else 0.  Rust `%` panics on a zero divisor, modelled as `none`. -/
def dvModulo : DValue → DValue → Option DValue
  | .num (.int a), .num (.int b) =>
      if b = 0 then none else some (.num (.int (a.tmod b)))
  | .num _, .num _ => some (.num (.int 0))
  | _, _ => some (.num (.int 0))

/-! ## `src/value/compare.rs` -/

/-- Ordering on booleans (`bool::cmp`: false < true). -/
def boolCmp : Bool → Bool → Ordering
  | false, false => .eq
  | false, true => .lt
  | true, false => .gt
  | true, true => .eq

/-- Ordering on naturals, for the `type_order` fallback. -/
def natCmp (a b : Nat) : Ordering :=
  if a < b then .lt else if a = b then .eq else .gt

/-- Lexicographic comparison of character lists. -/
def charListCmp : List Char → List Char → Ordering
  | [], [] => .eq
  | [], _ :: _ => .lt
  | _ :: _, [] => .gt
  | a :: as_, b :: bs =>
      match natCmp a.toNat b.toNat with
      | .eq => charListCmp as_ bs
      | o => o

/-- Rust `str::cmp`: lexicographic over the character sequence (byte order
and codepoint order agree for UTF-8). -/
def strCmp (a b : String) : Ordering := charListCmp a.data b.data

/-- Extra termination weight: the `(String, Number)` arm of `compare_values`
recurses with the arguments swapped, so strings weigh one extra unit. -/
def cmpPen : DValue → Nat
  | .str _ => 1
  | _ => 0

/-- The termination weight is at most one. -/
theorem cmpPen_le_one (a : DValue) : cmpPen a ≤ 1 := by
  unfold cmpPen; split <;> omega

/-- Every value has positive size. -/
theorem dvSize_pos (v : DValue) : 1 ≤ dvSize v := by
  cases v <;> (simp only [dvSize]; omega)

mutual
/-- `compare_values` from `src/value/compare.rs`: natural ordering within a
variant; Number↔String parses the string (unparseable → Number first);
booleans compare as 0/1; Null below everything else; otherwise the
`type_order` fallback.  NaN comparisons fall back to `Equal`
(`partial_cmp(..).unwrap_or(Ordering::Equal)`). -/
def compare_values : DValue → DValue → Ordering
  | .null, .null => .eq
  | .bool a, .bool b => boolCmp a b
  | .num a, .num b => (fcmp (numToF64 a) (numToF64 b)).getD .eq
  | .str a, .str b => strCmp a b
  | .arr a, .arr b =>
      match compareZip a b with
      | some o => o
      | none => natCmp a.length b.length
  | .num n, .str s =>
      match parseF64 s with
      | some sv => (fcmp (numToF64 n) sv).getD .eq
      | none => .lt
  | .str s, .num n =>
      match compare_values (.num n) (.str s) with
      | .lt => .gt
      | .gt => .lt
      | .eq => .eq
  | .bool b, other => compare_values (.num (.int (if b then 1 else 0))) other
  | other, .bool b => compare_values other (.num (.int (if b then 1 else 0)))
  | .null, _ => .lt
  | _, .null => .gt
  | l, r => natCmp (typeOrder l) (typeOrder r)
termination_by a b => dvSize a + dvSize b + cmpPen a
decreasing_by
  all_goals simp [dvSize, dvListSize, cmpPen] <;> omega

/-- The element-wise loop of the array arm of `compare_values`: first
non-equal pair decides; `none` when the zipped prefix is entirely equal. -/
def compareZip : List DValue → List DValue → Option Ordering
  | a :: as_, b :: bs =>
      (match compare_values a b with
       | .eq => compareZip as_ bs
       | o => some o)
  | _, _ => none
termination_by as_ bs => dvListSize as_ + dvListSize bs + 2
decreasing_by
  all_goals simp [dvSize, dvListSize]
  all_goals
    (have h := cmpPen_le_one a
     have h2 := dvSize_pos a
     have h3 := dvSize_pos b
     omega)
end

/-- Extra termination weight: three arms of `loose_equals` recurse with the
arguments swapped. -/
def loosePen : DValue → DValue → Nat
  | .str _, .num _ => 1
  | .num _, .bool _ => 1
  | .str _, .bool _ => 1
  | _, _ => 0

/-- `loose_equals` from `src/value/compare.rs`: JavaScript-style `==`.
Number↔String parses the string and compares within `f64::EPSILON`;
Bool↔Number maps the boolean to 0/1; Bool↔String accepts exactly
`"true"`, `"false"`, `"1"`, `"0"`; every other pair falls back to `==`
on `DataValue`. -/
def loose_equals : DValue → DValue → Bool
  | .num n, .str s =>
      (match parseF64 s with
       | some sv => flt (fabs (fsub (numToF64 n) sv)) epsFP
       | none => false)
  | .str s, .num n => loose_equals (.num n) (.str s)
  | .bool b, .num n =>
      flt (fabs (fsub (.finite (if b then 1 else 0)) (numToF64 n))) epsFP
  | .num n, .bool b => loose_equals (.bool b) (.num n)
  | .bool b, .str s =>
      if s = "true" then b
      else if s = "false" then !b
      else if s = "1" then b
      else if s = "0" then !b
      else false
  | .str s, .bool b => loose_equals (.bool b) (.str s)
  | l, r => dvEq l r
termination_by a b => loosePen a b
decreasing_by all_goals simp [loosePen]

/-- `strict_equals` from `src/value/compare.rs`: same `get_type`, then `==`
on `DataValue`. -/
def strict_equals (l r : DValue) : Bool :=
  if typeOrder l ≠ typeOrder r then false else dvEq l r

/-! ## Reflexivity and antisymmetry of the comparison module (claims C7, C8) -/

/-! ## Bytecode types (`src/compiler/types.rs`) -/

/-- `OpCode` from `src/compiler/types.rs`. -/
inductive OpCode where
  | loadConst
  | loadLocal
  | storeLocal
  | loadVar
  | loadDynamicVar
  | variadic
  | call
  | jump
  | jumpIfFalse
  | jumpIfTrue
  | ret
deriving DecidableEq, Repr

/-- `OpTag` from `src/compiler/types.rs`. -/
inductive OpTag where
  | add | sub | mul | div | mod | min | max
  | equal | notEqual | strictEqual | strictNotEqual
  | lessThan | lessThanOrEqual | greaterThan | greaterThanOrEqual
  | and | or | inOp
  | not | dnot
deriving DecidableEq, Repr

/-- The numeric encoding of `OpTag` (`#[repr(u8)]` discriminants). -/
def OpTag.code : OpTag → Nat
  | .add => 0x00 | .sub => 0x01 | .mul => 0x02 | .div => 0x03
  | .mod => 0x04 | .min => 0x05 | .max => 0x06
  | .equal => 0x10 | .notEqual => 0x11 | .strictEqual => 0x12
  | .strictNotEqual => 0x13
  | .lessThan => 0x14 | .lessThanOrEqual => 0x15
  | .greaterThan => 0x16 | .greaterThanOrEqual => 0x17
  | .and => 0x20 | .or => 0x21 | .inOp => 0x30
  | .not => 0x40 | .dnot => 0x41

/-- `OpTag::from(u32)` — unknown codes default to `Add`. -/
def opTagOfCode (v : Nat) : OpTag :=
  let b := v % 256
  if b = 0x00 then .add else if b = 0x01 then .sub
  else if b = 0x02 then .mul else if b = 0x03 then .div
  else if b = 0x04 then .mod else if b = 0x05 then .min
  else if b = 0x06 then .max
  else if b = 0x10 then .equal else if b = 0x11 then .notEqual
  else if b = 0x12 then .strictEqual else if b = 0x13 then .strictNotEqual
  else if b = 0x14 then .lessThan else if b = 0x15 then .lessThanOrEqual
  else if b = 0x16 then .greaterThan else if b = 0x17 then .greaterThanOrEqual
  else if b = 0x20 then .and else if b = 0x21 then .or
  else if b = 0x30 then .inOp
  else if b = 0x40 then .not else if b = 0x41 then .dnot
  else .add

/-- `CallTag` from `src/compiler/types.rs`. -/
inductive CallTag where
  | map | filter | reduce | all | some | none
  | merge | cat | substring | log | missing | missingSome
deriving DecidableEq, Repr

/-- The numeric encoding of `CallTag`. -/
def CallTag.code : CallTag → Nat
  | .map => 0x00 | .filter => 0x01 | .reduce => 0x02 | .all => 0x03
  | .some => 0x04 | .none => 0x05 | .merge => 0x06 | .cat => 0x07
  | .substring => 0x08 | .log => 0x09 | .missing => 0x0A
  | .missingSome => 0x0B

/-- `CallTag::from_u8`. -/
def callTagOfCode (v : Nat) : Option CallTag :=
  if v = 0x00 then some .map else if v = 0x01 then some .filter
  else if v = 0x02 then some .reduce else if v = 0x03 then some .all
  else if v = 0x04 then some .some else if v = 0x05 then some .none
  else if v = 0x06 then some .merge else if v = 0x07 then some .cat
  else if v = 0x08 then some .substring else if v = 0x09 then some .log
  else if v = 0x0A then some .missing else if v = 0x0B then some .missingSome
  else Option.none

/-- A 32-bit instruction (`Instr` from `src/compiler/types.rs`): opcode byte
plus a 24-bit immediate.  The opcode byte is kept symbolic; the immediate is
reduced mod 2²⁴ exactly where `Instr::new` / `set_operand` mask it. -/
structure Instr where
  op : OpCode
  imm : Nat
deriving DecidableEq, Repr

/-- `Instr::new`: the immediate is masked to 24 bits. -/
def Instr.new (op : OpCode) (imm : Nat) : Instr :=
  ⟨op, imm % 2 ^ 24⟩

/-- `Instr::set_operand`: replace the immediate (masked), keep the opcode. -/
def Instr.setOperand (i : Instr) (imm : Nat) : Instr :=
  ⟨i.op, imm % 2 ^ 24⟩

/-- `Program` from `src/compiler/types.rs`. -/
structure Program where
  instructions : List Instr
  const_pool : List DValue
deriving Repr

/-! ## Modelled datavalue-rs operations used by the VM -/

/-- The `i64` range bounds. -/
def i64Min : Int := -(2 ^ 63)

/-- The `i64` range upper bound. -/
def i64Max : Int := 2 ^ 63 - 1

/-- Modelled from the spec: the `Add` operator of the external datavalue-rs
`DataValue` (§4.1 "Arithmetic returns integer when both operands and the
exact result are representable as i64 without fractional remainder;
otherwise float").  Non-numeric operands are an error. -/
def dvAdd : DValue → DValue → Except Unit DValue
  | .num (.int a), .num (.int b) =>
      let r := a + b
      if i64Min ≤ r ∧ r ≤ i64Max then .ok (.num (.int r))
      else .ok (.num (.float (.finite (r : ℚ))))
  | .num a, .num b => .ok (.num (.float (fadd (numToF64 a) (numToF64 b))))
  | _, _ => .error ()

/-- Modelled from the spec: the `Sub` operator of datavalue-rs `DataValue`. -/
def dvSub : DValue → DValue → Except Unit DValue
  | .num (.int a), .num (.int b) =>
      let r := a - b
      if i64Min ≤ r ∧ r ≤ i64Max then .ok (.num (.int r))
      else .ok (.num (.float (.finite (r : ℚ))))
  | .num a, .num b => .ok (.num (.float (fsub (numToF64 a) (numToF64 b))))
  | _, _ => .error ()

/-- Modelled from the spec: the `Mul` operator of datavalue-rs `DataValue`. -/
def dvMul : DValue → DValue → Except Unit DValue
  | .num (.int a), .num (.int b) =>
      let r := a * b
      if i64Min ≤ r ∧ r ≤ i64Max then .ok (.num (.int r))
      else .ok (.num (.float (.finite (r : ℚ))))
  | .num a, .num b => .ok (.num (.float (fmul (numToF64 a) (numToF64 b))))
  | _, _ => .error ()

/-- Modelled from the spec: the `Div` operator of datavalue-rs `DataValue`.
Integer division yields an integer when exact, a float otherwise, and an
error on a zero integer divisor; mixed or float operands divide as IEEE
doubles. -/
def dvDiv : DValue → DValue → Except Unit DValue
  | .num (.int a), .num (.int b) =>
      if b = 0 then .error ()
      else
        let q : ℚ := (a : ℚ) / (b : ℚ)
        if q.den = 1 ∧ i64Min ≤ q.num ∧ q.num ≤ i64Max then .ok (.num (.int q.num))
        else .ok (.num (.float (.finite q)))
  | .num a, .num b => .ok (.num (.float (fdiv (numToF64 a) (numToF64 b))))
  | _, _ => .error ()

/-- Modelled from the spec: `DataValue::get` — key lookup on an object,
linear scan, first match wins (§3); `None` on every other variant. -/
def dvGet (v : DValue) (key : String) : Option DValue :=
  match v with
  | .obj entries => (entries.find? (fun e => e.1 == key)).map (·.2)
  | _ => none

/-- Modelled from the spec: `DataValue::get_index` — array indexing
(`i as usize`: a negative index wraps far beyond any length and misses). -/
def dvGetIndex (v : DValue) (i : Int) : Option DValue :=
  match v with
  | .arr elems => if i < 0 then none else elems.get? i.toNat
  | _ => none

/-- Discriminant order of the `DValue` variants, for the modelled derived
`PartialOrd` (declaration order in datavalue-rs). -/
def dvDiscr : DValue → Nat := typeOrder

mutual
/-- Modelled: the derived `PartialOrd::partial_cmp` of datavalue-rs
`DataValue` (used by the VM's `Min`/`Max` via `<`/`>`): variants compare by
declaration order; equal variants compare their fields, floats partially. -/
def dvPCmp : DValue → DValue → Option Ordering
  | .null, .null => some .eq
  | .bool a, .bool b => some (boolCmp a b)
  | .num (.int a), .num (.int b) => some (qcmp (a : ℚ) (b : ℚ))
  | .num (.int _), .num (.float _) => some .lt
  | .num (.float _), .num (.int _) => some .gt
  | .num (.float a), .num (.float b) => fcmp a b
  | .str a, .str b => some (strCmp a b)
  | .arr a, .arr b => dvPCmpList a b
  | .obj a, .obj b => dvPCmpObj a b
  | .datetime a, .datetime b => some (qcmp (a : ℚ) (b : ℚ))
  | .duration a, .duration b => some (qcmp (a : ℚ) (b : ℚ))
  | l, r => some (natCmp (dvDiscr l) (dvDiscr r))

/-- Lexicographic partial comparison of value lists for `dvPCmp`. -/
def dvPCmpList : List DValue → List DValue → Option Ordering
  | [], [] => some .eq
  | [], _ :: _ => some .lt
  | _ :: _, [] => some .gt
  | a :: as_, b :: bs =>
      match dvPCmp a b with
      | some .eq => dvPCmpList as_ bs
      | o => o

/-- Lexicographic partial comparison of object entry lists for `dvPCmp`. -/
def dvPCmpObj : List (String × DValue) → List (String × DValue) → Option Ordering
  | [], [] => some .eq
  | [], _ :: _ => some .lt
  | _ :: _, [] => some .gt
  | (ka, va) :: as_, (kb, vb) :: bs =>
      match strCmp ka kb with
      | .eq =>
          match dvPCmp va vb with
          | some .eq => dvPCmpObj as_ bs
          | o => o
      | o => some o
end

/-- `result > arg` on `DataValue` (`PartialOrd`). -/
def dvPGt (a b : DValue) : Bool := dvPCmp a b == some .gt

/-- `result < arg` on `DataValue` (`PartialOrd`). -/
def dvPLt (a b : DValue) : Bool := dvPCmp a b == some .lt

/-- Decimal rendering of an integer (`i64::to_string`). -/
def intToString (i : Int) : String := toString i

/-- Modelled: Rust float `Display`, only where exact — integral doubles
render without a decimal point in the shortest-roundtrip format is NOT what
Rust does (Rust prints `3` as `"3"`), so only the integer case and the
special values are modelled; other floats are left unmodelled (`none`). -/
def fpToString : FP → Option String
  | .finite q => if q.den = 1 then some (toString q.num) else none
  | .inf => some "inf"
  | .neginf => some "-inf"
  | .nan => some "NaN"

/-- The first list starts with the second. -/
def startsWithChars : List Char → List Char → Bool
  | _, [] => true
  | [], _ :: _ => false
  | c :: cs, d :: ds => c == d && startsWithChars cs ds

/-- Substring containment on character lists. -/
def charsContain (sub : List Char) : List Char → Bool
  | [] => sub.isEmpty
  | c :: cs => startsWithChars (c :: cs) sub || charsContain sub cs

/-- Substring containment on strings (`str::contains`). -/
def strContains (hay sub : String) : Bool :=
  charsContain sub.data hay.data

/-! ## The stack VM (`src/vm_stack/mod.rs::run`) -/

/-- The operand-popping loop of the `Variadic` handler
(`src/vm_stack/mod.rs` lines 283–295): pop `n` values; an array operand has
its elements spliced into the argument list, any other operand is pushed as
itself; a missing pop contributes `Null`.  Returns the collected arguments
(in pop order) and the remaining stack.  The stack is modelled head-first
(head = top of stack). -/
def popArgs : Nat → List DValue → List DValue × List DValue
  | 0, s => ([], s)
  | n + 1, [] =>
      let (args, s) := popArgs n []
      (DValue.null :: args, s)
  | n + 1, v :: rest =>
      let (args, s) := popArgs n rest
      ((match v with
        | .arr l => l
        | _ => [v]) ++ args, s)

/-- The accumulation loop of the `Add` arm: add each coerced operand,
keeping the current value when the addition errors. -/
def addLoop : DValue → List DValue → DValue
  | result, [] => result
  | result, arg :: rest =>
      match dvAdd result (coerce_to_number arg) with
      | .ok v => addLoop v rest
      | .error _ => addLoop result rest

/-- The fold of the `Sub` arm over the remaining operands. -/
def subLoop : DValue → List DValue → DValue
  | result, [] => result
  | result, arg :: rest =>
      match dvSub result (coerce_to_number arg) with
      | .ok v => subLoop v rest
      | .error _ => subLoop result rest

/-- The fold of the `Mul` arm. -/
def mulLoop : DValue → List DValue → DValue
  | result, [] => result
  | result, arg :: rest =>
      match dvMul result (coerce_to_number arg) with
      | .ok v => mulLoop v rest
      | .error _ => mulLoop result rest

/-- The divisor-is-zero test of the `Div` arm (`Integer 0` or `Float 0.0`). -/
def isZeroNum : DValue → Bool
  | .num (.int i) => i == 0
  | .num (.float f) => feq f (.finite 0)
  | _ => false

/-- The fold of the `Div` arm: a divisor that coerces to zero replaces the
result with integer 0 and stops the loop. -/
def divLoop : DValue → List DValue → DValue
  | result, [] => result
  | result, arg :: rest =>
      if isZeroNum (coerce_to_number arg) then .num (.int 0)
      else
        match dvDiv result (coerce_to_number arg) with
        | .ok v => divLoop v rest
        | .error _ => divLoop result rest

/-- The fold of the `Min` arm (`result > *arg` via `PartialOrd`). -/
def minLoop : DValue → List DValue → DValue
  | result, [] => result
  | result, arg :: rest =>
      if dvPGt result arg then minLoop arg rest else minLoop result rest

/-- The fold of the `Max` arm (`result < *arg` via `PartialOrd`). -/
def maxLoop : DValue → List DValue → DValue
  | result, [] => result
  | result, arg :: rest =>
      if dvPLt result arg then maxLoop arg rest else maxLoop result rest

/-- The short-circuit loop of the `And` arm: test the current value, then
move to the next operand. -/
def andLoop : DValue → List DValue → DValue
  | result, [] => result
  | result, arg :: rest =>
      if !(is_truthy result) then result else andLoop arg rest

/-- The short-circuit loop of the `Or` arm: assign, then test. -/
def orLoop : DValue → List DValue → DValue
  | result, [] => result
  | _, arg :: rest =>
      if is_truthy arg then arg else orLoop arg rest

/-- Chained comparison over adjacent pairs, with the per-pair acceptance
test on the `compare` result. -/
def chainCmp (ok : Ordering → Bool) : List DValue → Bool
  | a :: b :: rest => ok (compare_values a b) && chainCmp ok (b :: rest)
  | _ => true

/-- All-pairs loose inequality (the `NotEqual` arm's double loop). -/
def pairwiseNE : List DValue → Bool
  | [] => true
  | x :: rest => rest.all (fun y => !(loose_equals x y)) && pairwiseNE rest

/-- All-pairs strict inequality (the `StrictNotEqual` arm's double loop). -/
def pairwiseSNE : List DValue → Bool
  | [] => true
  | x :: rest => rest.all (fun y => !(strict_equals x y)) && pairwiseSNE rest

/-- Modelled: `DataValue`'s `Display`/`to_string`, on the variants whose
rendering the spec fixes (§4.4 Cat: numbers naturally, true/false, null);
non-integral floats and compound values are not modelled (`none`). -/
def dvDisplay : DValue → Option String
  | .str s => some s
  | .num (.int i) => some (intToString i)
  | .num (.float f) => fpToString f
  | .bool b => some (if b then "true" else "false")
  | .null => some "null"
  | _ => none

/-- The `Variadic` dispatch of `run` (`src/vm_stack/mod.rs` lines 300–666),
as a function of the operation tag and the collected arguments.  `none`
models a Rust panic (`unwrap` on an arithmetic error, an out-of-bounds
`args[1]` in `Mod`) or an unmodelled float rendering. -/
def applyVariadic (tag : OpTag) (args : List DValue) : Option DValue :=
  match tag with
  | .add => some (convert_to_number (addLoop (.num (.float (.finite 0))) args))
  | .sub =>
      match args with
      | [] => some (.num (.int 0))
      | [x] =>
          match dvSub (.num (.int 0)) (coerce_to_number x) with
          | .ok v => some v
          | .error _ => none
      | x :: rest => some (subLoop (coerce_to_number x) rest)
  | .mul => some (mulLoop (.num (.int 1)) args)
  | .div =>
      match args with
      | [] => some (.num (.int 0))
      | [x] =>
          match dvDiv (.num (.float (.finite 1))) (coerce_to_number x) with
          | .ok v => some v
          | .error _ => none
      | x :: rest => some (divLoop (coerce_to_number x) rest)
  | .min =>
      match args with
      | [] => some (.num (.int 0))
      | x :: rest => some (minLoop x rest)
  | .max =>
      match args with
      | [] => some (.num (.int 0))
      | x :: rest => some (maxLoop x rest)
  | .mod =>
      match args with
      | a :: b :: _ => dvModulo a b
      | _ => none
  | .and =>
      match args with
      | [] => some (.bool true)
      | x :: rest => some (andLoop x rest)
  | .or => some (orLoop (.bool false) args)
  | .lessThan =>
      if args.length < 2 then some (.bool false)
      else some (.bool (chainCmp (fun o => o == .lt) args))
  | .lessThanOrEqual =>
      if args.length < 2 then some (.bool false)
      else some (.bool (chainCmp (fun o => o == .lt || o == .eq) args))
  | .greaterThan =>
      if args.length < 2 then some (.bool false)
      else some (.bool (chainCmp (fun o => o == .gt) args))
  | .greaterThanOrEqual =>
      if args.length < 2 then some (.bool false)
      else some (.bool (chainCmp (fun o => o == .gt || o == .eq) args))
  | .equal =>
      if args.length < 2 then some (.bool false)
      else
        match args with
        | [] => some (.bool false)
        | first :: rest => some (.bool (rest.all (fun v => loose_equals first v)))
  | .notEqual =>
      if args.length < 2 then some (.bool false)
      else some (.bool (pairwiseNE args))
  | .strictEqual =>
      if args.length < 2 then some (.bool false)
      else
        match args with
        | [] => some (.bool false)
        | first :: rest => some (.bool (rest.all (fun v => strict_equals first v)))
  | .strictNotEqual =>
      if args.length < 2 then some (.bool false)
      else some (.bool (pairwiseSNE args))
  | .inOp =>
      if args.length < 2 then some (.bool false)
      else
        match args with
        | needle :: haystack :: _ =>
            match haystack with
            | .arr arr => some (.bool (arr.any (fun item => loose_equals needle item)))
            | .str s =>
                match needle with
                -- source distinguishes 1-char and longer strings; both call
                -- `str::contains`
                | .str c => some (.bool (strContains s c))
                | .num n =>
                    match (match n with
                           | .int i => some (intToString i)
                           | .float f => fpToString f) with
                    | some rendered =>
                        match rendered.data with
                        | c :: _ => some (.bool (strContains s (String.mk [c])))
                        | [] => some (.bool false)
                    | none => none
                | _ => some (.bool false)
            | _ => some (.bool false)
        | _ => some (.bool false)
  | .not =>
      match args.getLast? with
      | Option.none => some (.bool true)
      | Option.some v => some (.bool (!(is_truthy v)))
  | .dnot =>
      match args.getLast? with
      | Option.none => some (.bool false)
      | Option.some v => some (.bool (is_truthy v))

/-- `i as usize` on a 64-bit platform (two's-complement wrap). -/
def intAsUsize (i : Int) : Nat := if 0 ≤ i then i.toNat else (2 ^ 64 + i).toNat

namespace ParserM

/-- `OperatorType` of `src/parser/mod.rs` (this module's own enum — distinct
from the one in `src/core/mod.rs`). -/
inductive OperatorType where
  | Add | Subtract | Multiply | Divide | Modulo | Min | Max | Abs | Ceil | Floor
  | Equal | StrictEqual | NotEqual | StrictNotEqual | GT | GTE | LT | LTE
  | If | And | Or | Not | NullCoalesce
  | Var | Missing | MissingAll | MissingSome | Val | Exists
  | Map | Filter | Reduce | All | Some | None | Merge | In | Cat | Log | Custom
deriving DecidableEq, Repr

/-- `ParserError` of `src/parser/mod.rs`; the formatted payloads of the
`reason` strings are elided.  `fuel` is a modelling artifact: the recursion
budget of the fuel-indexed embedding ran out (the Rust recursion is
unbounded). -/
inductive PErr where
  | parserError (reason : String)
  | operatorNotFound (operator : String)
  | invalidOperatorArguments (reason : String)
  | fuel
deriving DecidableEq, Repr

/-- `OperatorType::from_str` (`src/parser/mod.rs` lines 143–195). -/
def from_str (s : String) : Except PErr OperatorType :=
  if s = "+" then .ok .Add
  else if s = "-" then .ok .Subtract
  else if s = "*" then .ok .Multiply
  else if s = "/" then .ok .Divide
  else if s = "%" then .ok .Modulo
  else if s = "min" then .ok .Min
  else if s = "max" then .ok .Max
  else if s = "abs" then .ok .Abs
  else if s = "ceil" then .ok .Ceil
  else if s = "floor" then .ok .Floor
  else if s = "==" then .ok .Equal
  else if s = "===" then .ok .StrictEqual
  else if s = "!=" then .ok .NotEqual
  else if s = "!==" then .ok .StrictNotEqual
  else if s = ">" then .ok .GT
  else if s = ">=" then .ok .GTE
  else if s = "<" then .ok .LT
  else if s = "<=" then .ok .LTE
  else if s = "if" then .ok .If
  else if s = "and" then .ok .And
  else if s = "or" then .ok .Or
  else if s = "not" then .ok .Not
  else if s = "??" then .ok .NullCoalesce
  else if s = "var" then .ok .Var
  else if s = "missing" then .ok .Missing
  else if s = "missing_all" then .ok .MissingAll
  else if s = "missing_some" then .ok .MissingSome
  else if s = "val" then .ok .Val
  else if s = "exists" then .ok .Exists
  else if s = "map" then .ok .Map
  else if s = "filter" then .ok .Filter
  else if s = "reduce" then .ok .Reduce
  else if s = "all" then .ok .All
  else if s = "some" then .ok .Some
  else if s = "none" then .ok .None
  else if s = "merge" then .ok .Merge
  else if s = "in" then .ok .In
  else if s = "cat" then .ok .Cat
  else if s = "log" then .ok .Log
  else .error (.operatorNotFound s)

/-- `Token` of `src/parser/mod.rs`. -/
inductive Token where
  | Literal (v : DValue)
  | Array (items : List Token)
  | ArrayLiteral (items : List DValue)
  | Variable (path : DValue) (default : Option DValue) (scope_jump : Option Nat)
  | DynamicVariable (path_expr : Token) (default : Option Token)
      (scope_jump : Option Nat)
  | Operator (op_type : OperatorType) (args : Token)
  | CustomOperator (name : String) (args : Token)
deriving Repr

/-- `Token::is_literal`. -/
def Token.is_literal : Token → Bool
  | .Literal _ => true
  | _ => false

/-- `parse_variable_path` (`src/parser/jsonlogic.rs` lines 145–173). -/
def parse_variable_path (path : String) : Except PErr DValue :=
  if strContains path "." then
    .ok (.arr ((path.splitOn ".").map (fun p =>
      match parseI64 p with
      | some n => .num (.int n)
      | none => .str p)))
  else if path.isEmpty then .ok (.arr [])
  else match parseI64 path with
    | some n => .ok (.num (.int n))
    | none => .ok (.str path)

mutual

/-- `parse_datavalue_internal` (`src/parser/jsonlogic.rs` lines 13–30),
fuel-indexed. -/
def parse_datavalue_internal : Nat → DValue → Except PErr Token
  | 0, _ => .error .fuel
  | fuel + 1, v =>
      match v with
      | .arr arr => parse_array fuel arr
      | .obj entries => parse_object fuel entries
      | other => .ok (.Literal other)

/-- `parse_array` (`src/parser/jsonlogic.rs` lines 32–50): if every element
parses to a literal token, the original values form an `ArrayLiteral`. -/
def parse_array : Nat → List DValue → Except PErr Token
  | 0, _ => .error .fuel
  | fuel + 1, arr => do
      let toks ← parse_item_list fuel arr
      if toks.all Token.is_literal then .ok (.ArrayLiteral arr)
      else .ok (.Array toks)

/-- The element loop of `parse_array`. -/
def parse_item_list : Nat → List DValue → Except PErr (List Token)
  | 0, _ => .error .fuel
  | _, [] => .ok []
  | fuel + 1, x :: rest => do
      let t ← parse_datavalue_internal fuel x
      let ts ← parse_item_list fuel rest
      .ok (t :: ts)

/-- `parse_object` (`src/parser/jsonlogic.rs` lines 53–89): a single key is
an operator position (`var` / `val` / `preserve` / standard / custom); the
empty object is a literal; two or more keys fail with
`OperatorNotFoundError` naming the first key. -/
def parse_object : Nat → List (String × DValue) → Except PErr Token
  | 0, _ => .error .fuel
  | fuel + 1, entries =>
      match entries with
      | [(key, value)] =>
          if key = "var" then parse_variable fuel value
          else if key = "val" then parse_val fuel value
          else if key = "preserve" then .ok (.Literal value)
          else
            (match from_str key with
             | .ok op_type => do
                 let t ← parse_datavalue_internal fuel value
                 .ok (.Operator op_type t)
             | .error _ => do
                 let t ← parse_datavalue_internal fuel value
                 .ok (.CustomOperator key t))
      | [] => .ok (.Literal (.obj []))
      | (key, _) :: _ :: _ => .error (.operatorNotFound key)

/-- `parse_val` (`src/parser/jsonlogic.rs` lines 91–143). -/
def parse_val : Nat → DValue → Except PErr Token
  | 0, _ => .error .fuel
  | fuel + 1, value =>
      match value with
      | .str s => .ok (.Variable (.str s) none none)
      | .num (.int i) => .ok (.Variable (.num (.int i)) none none)
      | .arr arr =>
          (match arr with
           | (.arr [.num (.int i)]) :: r0 :: rs =>
               .ok (.DynamicVariable (.Literal (.arr (r0 :: rs))) none
                 (some (intAsUsize i)))
           | _ =>
               if arr.any (fun item =>
                   match item with
                   | .obj _ => true
                   | _ => false) then
                 .ok (.DynamicVariable (.Literal (.arr arr)) none none)
               else .ok (.Variable (.arr arr) none none))
      | .obj entries => do
          let op ← parse_object fuel entries
          .ok (.DynamicVariable op none none)
      | _ => .error (.parserError "Invalid val syntax")

/-- `parse_variable` (`src/parser/jsonlogic.rs` lines 176–251). -/
def parse_variable : Nat → DValue → Except PErr Token
  | 0, _ => .error .fuel
  | fuel + 1, var_value =>
      match var_value with
      | .str path => do
          let v ← parse_variable_path path
          .ok (.Variable v none none)
      | .num (.int i) => .ok (.Variable (.num (.int i)) none none)
      | .null => .ok (.Variable (.arr []) none none)
      | .arr [] => .ok (.Variable (.arr []) none none)
      | .arr (p :: rest) =>
          if (match p with
              | .obj _ => true
              | _ => false) ||
             (match rest.head? with
              | some (.obj _) => true
              | _ => false) then do
            let pe ← parse_datavalue_internal fuel p
            let de ← (match rest with
              | d :: _ => do
                  let t ← parse_datavalue_internal fuel d
                  pure (some t)
              | [] => pure none)
            .ok (.DynamicVariable pe de none)
          else .ok (.Variable p rest.head? none)
      | _ => .error (.parserError "Invalid variable syntax")

end

end ParserM

/-- The drain loop of the `Merge` call handler: arrays are spliced, other
values appended, in pop order. -/
def mergeLoop : List DValue → List DValue
  | [] => []
  | v :: rest =>
      (match v with
       | .arr l => l
       | _ => [v]) ++ mergeLoop rest

/-- The concatenation loop of the `Cat` call handler, rendering each popped
value (`none` when a rendering is not modelled). -/
def catRender : List DValue → Option String
  | [] => some ""
  | v :: rest => do
      let s ← dvDisplay v
      let r ← catRender rest
      pure (s ++ r)

/-- The dotted-path walk used by `LoadDynamicVar`, `Missing` and
`MissingSome`: follow each `.`-separated segment with `get`. -/
def dottedGet : DValue → List String → Option DValue
  | cur, [] => some cur
  | cur, p :: rest =>
      match dvGet cur p with
      | some v => dottedGet v rest
      | none => none

/-- The array-path walk of the `Missing` / `MissingSome` handlers: string
segments are object keys, integer segments array indices, anything else
fails. -/
def arrWalkFound : DValue → List DValue → Bool
  | _, [] => true
  | cur, item :: rest =>
      match item with
      | .str s =>
          match dvGet cur s with
          | some v => arrWalkFound v rest
          | none => false
      | .num (.int i) =>
          match dvGetIndex cur i with
          | some v => arrWalkFound v rest
          | none => false
      | _ => false

/-- The per-path missing test of the `Missing` handler
(`src/vm_stack/mod.rs` lines 876–949; the `MissingSome` handler repeats the
same logic verbatim): empty string → present; dotted string → walk; plain
string → direct key; integer → index; array → segment walk; anything else →
missing. -/
def pathIsMissing (data path : DValue) : Bool :=
  match path with
  | .str s =>
      if s.isEmpty then false
      else if strContains s "." then
        !(dottedGet data (s.splitOn ".")).isSome
      else !(dvGet data s).isSome
  | .num (.int i) => !(dvGetIndex data i).isSome
  | .arr items => !(arrWalkFound data items)
  | _ => true

/-- The `Missing` call handler: a single stacked array supplies the path
list, otherwise the whole stack does; the result is the array of paths that
do not resolve. -/
def runMissing (data : DValue) (stack : List DValue) : DValue :=
  let paths : List DValue :=
    if stack.length == 1 then
      match stack with
      | [.arr arr] => arr
      | [other] => [other]
      | _ => []
    else stack
  .arr (paths.filter (pathIsMissing data))

/-- The tail of the `MissingSome` handler: empty array when at least
`minReq` paths resolve, else the missing ones. -/
def missingSomeResult (data : DValue) (minReq : Nat) (paths : List DValue) :
    DValue :=
  let found := (paths.filter (fun p => !(pathIsMissing data p))).length
  if found ≥ minReq then .arr []
  else .arr (paths.filter (pathIsMissing data))

/-- The `Substring` call handler body (`src/vm_stack/mod.rs` lines
778–838), after the three stack values have been popped. -/
def vmSubstring (stringV startV : DValue) (lenOpt : Option DValue) :
    Option DValue := do
  let source ← (match stringV with
    | .str s => some s
    | v => dvDisplay v)
  let chars := source.data
  let strLen := chars.length
  let startIdx : Nat :=
    match startV with
    | .num (.int i) => if i < 0 then strLen - i.natAbs else i.toNat
    | _ => 0
  let length : Nat :=
    match lenOpt with
    | some (.num (.int i)) =>
        if i < 0 then
          (if startIdx < strLen then
             (let endPos := strLen - i.natAbs
              if endPos > startIdx then endPos - startIdx else 0)
           else 0)
        else i.toNat
    | _ => strLen - startIdx
  let result :=
    if startIdx < strLen then
      String.mk ((chars.drop startIdx).take (min (startIdx + length) strLen - startIdx))
    else ""
  pure (.str result)

/-- The iterative array-path loop of the `LoadVar` / `LoadDynamicVar` arms:
carries the `(found, result)` pair through every segment (the source loop
does not break on failure). -/
def loadVarWalk : (Bool × DValue) → List DValue → Bool × DValue
  | st, [] => st
  | st, item :: rest =>
      let result := st.2
      let next : Bool × DValue :=
        match item with
        | .str s =>
            match dvGet result s with
            | some v => (true, v)
            | none => (false, .null)
        | .num (.int i) =>
            match dvGetIndex result i with
            | some v => (true, v)
            | none => (false, .null)
        | _ => (false, .null)
      loadVarWalk next rest

/-- The execution loop of `run` (`src/vm_stack/mod.rs` lines 51–1133),
fuel-indexed.  The stack is modelled head-first.  `none` models fuel
exhaustion, a Rust panic (`unwrap` failures), or an unmodelled float
rendering; the source `continue` statements skip the `ip += 1`, so those
branches recurse at the same instruction.  Compiled programs always patch
jump targets to at least 1, matching `(target - 1) + 1` on `Nat`. -/
def runLoop (p : Program) (data : DValue) :
    Nat → Nat → List DValue → Option (List DValue)
  | 0, _, _ => none
  | fuel + 1, ip, stack =>
      match p.instructions[ip]? with
      | none => some stack
      | some instr =>
          match instr.op with
          | .loadConst =>
              (match p.const_pool[instr.imm]? with
               | some v => runLoop p data fuel (ip + 1) (v :: stack)
               | none => runLoop p data fuel (ip + 1) stack)
          | .loadVar =>
              (match p.const_pool[instr.imm]? with
               | none => runLoop p data fuel (ip + 1) stack
               | some value =>
                   let dflt := p.const_pool[instr.imm + 1]?
                   let st : Bool × DValue :=
                     match value with
                     | .null => (true, data)
                     | .str "" => (true, data)
                     | .arr [] => (true, data)
                     | .str s =>
                         (match dvGet data s with
                          | some v => (true, v)
                          | none => (false, .null))
                     | .num (.int i) =>
                         (match dvGetIndex data i with
                          | some v => (true, v)
                          | none => (false, .null))
                     | .arr items => loadVarWalk (false, data) items
                     | _ => (false, .null)
                   let result :=
                     if st.1 then st.2
                     else match dflt with
                       | some d => d
                       | none => st.2
                   runLoop p data fuel (ip + 1) (result :: stack))
          | .loadDynamicVar =>
              let (_scope, s1) :=
                match stack with
                | v :: r => (v, r)
                | [] => (DValue.num (.int (-1)), [])
              let (dfltV, s2) :=
                match s1 with
                | v :: r => (v, r)
                | [] => (DValue.null, [])
              let (path, s3) :=
                match s2 with
                | v :: r => (v, r)
                | [] => (DValue.null, [])
              let st : Bool × DValue :=
                match path with
                | .null => (true, data)
                | .str "" => (true, data)
                | .arr [] => (true, data)
                | .str s =>
                    (match dvGet data s with
                     | some v => (true, v)
                     | none =>
                         if strContains s "." then
                           match dottedGet data (s.splitOn ".") with
                           | some v => (true, v)
                           | none => (false, .null)
                         else (false, .null))
                | .num (.int i) =>
                    (match dvGetIndex data i with
                     | some v => (true, v)
                     | none => (false, .null))
                | .arr items => loadVarWalk (false, data) items
                | _ => (false, .null)
              let result := if st.1 then st.2 else dfltV
              runLoop p data fuel (ip + 1) (result :: s3)
          | .variadic =>
              let opTag := opTagOfCode (instr.imm >>> 16)
              let argCount := instr.imm &&& 0xFFFF
              if stack.length < argCount then
                let d : DValue :=
                  match opTag with
                  | .add => .num (.int 0)
                  | .mul => .num (.int 1)
                  | .and => .bool true
                  | .or => .bool false
                  | _ => .null
                runLoop p data fuel ip (d :: stack)
              else
                let (args, rest) := popArgs argCount stack
                match applyVariadic opTag args with
                | some v => runLoop p data fuel (ip + 1) (v :: rest)
                | none => none
          | .jump => runLoop p data fuel ((instr.imm - 1) + 1) stack
          | .jumpIfFalse =>
              let (c, rest) :=
                match stack with
                | v :: r => (v, r)
                | [] => (DValue.null, [])
              if !(is_truthy c) then
                runLoop p data fuel ((instr.imm - 1) + 1) rest
              else
                runLoop p data fuel (ip + 1) rest
          | .ret => runLoop p data fuel (ip + 1) stack
          | .call =>
              let tag := instr.imm % 256
              if tag = 0 then
                runLoop p data fuel (ip + 1) [.arr stack.reverse]
              else
                (match callTagOfCode tag with
                 | none => none
                 | some ct =>
                     match ct with
                     | .merge =>
                         if stack.isEmpty then
                           runLoop p data fuel ip (.arr [] :: stack)
                         else
                           runLoop p data fuel (ip + 1) [.arr (mergeLoop stack)]
                     | .cat =>
                         if stack.isEmpty then
                           runLoop p data fuel ip (.str "" :: stack)
                         else
                           (match catRender stack with
                            | some s => runLoop p data fuel (ip + 1) [.str s]
                            | none => none)
                     | .substring =>
                         if stack.length < 2 then
                           runLoop p data fuel ip (.str "" :: stack)
                         else
                           (match stack with
                            | stringV :: startV :: rest =>
                                let (lenOpt, rest2) :
                                    Option DValue × List DValue :=
                                  match rest with
                                  | [] => (none, [])
                                  | v :: r => (some v, r)
                                (match vmSubstring stringV startV lenOpt with
                                 | some v => runLoop p data fuel (ip + 1) (v :: rest2)
                                 | none => none)
                            | _ => none)
                     | .missing =>
                         runLoop p data fuel (ip + 1) [runMissing data stack]
                     | .missingSome =>
                         if stack.length == 1 then
                           (match stack with
                            | [only] =>
                                let mp : Nat × List DValue :=
                                  match only with
                                  | .arr arr =>
                                      if arr.length ≥ 2 then
                                        ((match (arr[0]? : Option DValue) with
                                          | some (.num (.int i)) => intAsUsize i
                                          | _ => 0),
                                         (match (arr[1]? : Option DValue) with
                                          | some (.arr pa) => pa
                                          | some other => [other]
                                          | none => []))
                                      else (0, [])
                                  | _ => (0, [])
                                runLoop p data fuel (ip + 1)
                                  [missingSomeResult data mp.1 mp.2]
                            | _ => none)
                         else if stack.length ≥ 2 then
                           (match stack with
                            | top :: second :: rest =>
                                let minReq :=
                                  match top with
                                  | .num (.int i) => intAsUsize i
                                  | _ => 0
                                let paths :=
                                  match second with
                                  | .arr arr => arr
                                  | other => [other]
                                runLoop p data fuel (ip + 1)
                                  (missingSomeResult data minReq paths :: rest)
                            | _ => none)
                         else
                           runLoop p data fuel ip (.arr [] :: stack)
                     | _ => runLoop p data fuel (ip + 1) stack)
          | _ => runLoop p data fuel (ip + 1) (DValue.null :: stack)

/-- `run`: execute the loop from instruction 0 with an empty stack; an empty
final stack yields `Null`, otherwise the top of the stack is the result
(`src/vm_stack/mod.rs` lines 1135–1143).  There is no error result: the
source function returns a plain `DataValue`. -/
def vmRun (p : Program) (data : DValue) (fuel : Nat) : Option DValue :=
  (runLoop p data fuel 0 []).map fun stack =>
    match stack with
    | [] => DValue.null
    | top :: _ => top

/-! ## The core AST (`src/core/mod.rs`) and the bytecode compiler
(`src/compiler/mod.rs`, `src/compiler/lower.rs`, `src/compiler/const_pool.rs`) -/

/-- `OperatorType` of `src/core/mod.rs` (the enum the compiler and the
stack engine use). -/
inductive OperatorType where
  | Add | Subtract | Multiply | Divide | Modulo | Min | Max | Abs | Ceil | Floor
  | Equal | StrictEqual | NotEqual | StrictNotEqual | GT | GTE | LT | LTE
  | If | And | Or | Not | DoubleBang | NullCoalesce
  | Var | Missing | MissingSome | Val | Exists
  | Map | Filter | Reduce | All | Some | None | Merge | In | Cat | Substring
  | Log | Custom
deriving DecidableEq, Repr

/-- `ASTNode` of `src/core/mod.rs`. -/
inductive ASTNode where
  | Literal (v : DValue)
  | Array (items : List ASTNode)
  | ArrayLiteral (items : List DValue)
  | Variable (path : DValue) (default : Option DValue) (scope_jump : Option Nat)
  | DynamicVariable (path_expr : ASTNode) (default : Option ASTNode)
      (scope_jump : Option Nat)
  | Operator (op_type : OperatorType) (args : ASTNode)
  | CustomOperator (name : String) (args : ASTNode)
deriving Repr

mutual
/-- `ASTNode::is_static` (`src/core/mod.rs` lines 327–360). -/
def ASTNode.is_static : ASTNode → Bool
  | .Literal _ => true
  | .ArrayLiteral _ => true
  | .Array items => isStaticList items
  | .Variable _ _ _ => false
  | .DynamicVariable _ _ _ => false
  | .Operator op_type args =>
      (match op_type with
       | .Var | .Missing | .MissingSome | .Exists => false
       | _ => args.is_static)
  | .CustomOperator _ _ => false

/-- `items.iter().all(|item| item.is_static())`. -/
def isStaticList : List ASTNode → Bool
  | [] => true
  | x :: rest => x.is_static && isStaticList rest
end

/-- `EvaluationStrategy::Eager`? — `OperatorType::evaluation_strategy` of
`src/core/mod.rs` lines 99–142, as a Boolean (`true` = Eager). -/
def eagerStrategy : OperatorType → Bool
  | .If | .And | .Or | .NullCoalesce => false
  | .Not | .DoubleBang => true
  | .Missing | .MissingSome | .Exists => true
  | .Map | .Filter | .Reduce | .All | .Some | .None | .Merge | .Cat => false
  | .Equal | .StrictEqual | .NotEqual | .StrictNotEqual
  | .GT | .GTE | .LT | .LTE | .In => false
  | .Substring => true
  | _ => true

/-- The state of `Lowering` (`src/compiler/lower.rs`): the emitted
instructions, the constant-pool values, and the return-emission flag (the
locals counters are never consulted by the compiled paths). -/
structure LowerState where
  instructions : List Instr
  pool : List DValue
  return_emitted : Bool
deriving Repr

/-- `ValueKey` of `src/compiler/const_pool.rs`: the hashable scalar keys of
the interning map (float keys are the bit pattern, here the exact `FP`). -/
inductive PoolKey where
  | null
  | bool (b : Bool)
  | int (i : Int)
  | float (f : FP)
  | str (s : String)
deriving DecidableEq, Repr

/-- `ConstPool::make_key`: arrays, objects, datetimes and durations are
never interned. -/
def make_key : DValue → Option PoolKey
  | .null => some .null
  | .bool b => some (.bool b)
  | .num (.int i) => some (.int i)
  | .num (.float f) => some (.float f)
  | .str s => some (.str s)
  | _ => none

/-- Appending a fresh value to the pool, with the 24-bit index check of
`ConstPool::add`. -/
def poolAppend (σ : LowerState) (v : DValue) : Except Unit (LowerState × Nat) :=
  let index := σ.pool.length
  if index ≥ 0xFFFFFF then .error ()
  else .ok ({σ with pool := σ.pool ++ [v]}, index)

/-- The interning-map lookup of `ConstPool::add`: the index of the first
pool value bearing the given key. -/
def poolFindIdx : List DValue → PoolKey → Option Nat
  | [], _ => none
  | w :: rest, k =>
      if make_key w == some k then some 0
      else (poolFindIdx rest k).map (· + 1)

/-- `ConstPool::add`: a keyed value already in the pool is reused (the
interning map sends a key to the index of the first value added with it);
otherwise the value is appended. -/
def poolAdd (σ : LowerState) (v : DValue) : Except Unit (LowerState × Nat) :=
  match make_key v with
  | some k =>
      (match poolFindIdx σ.pool k with
       | some idx => .ok (σ, idx)
       | none => poolAppend σ v)
  | none => poolAppend σ v

/-- `Lowering::emit`. -/
def emit (σ : LowerState) (i : Instr) : LowerState :=
  {σ with instructions := σ.instructions ++ [i]}

/-- `Lowering::emit_with_index`. -/
def emitWithIndex (σ : LowerState) (i : Instr) : LowerState × Nat :=
  (emit σ i, σ.instructions.length)

/-- `Lowering::update_jump`; an out-of-bounds index panics in the source
(`error` here). -/
def update_jump (σ : LowerState) (idx target : Nat) : Except Unit LowerState :=
  match σ.instructions[idx]? with
  | some ins =>
      .ok {σ with instructions := σ.instructions.set idx (ins.setOperand target)}
  | none => .error ()

/-- `Lowering::ensure_return`. -/
def ensure_return (σ : LowerState) : LowerState :=
  if σ.return_emitted then σ
  else
    match σ.instructions.getLast? with
    | none => {emit σ (Instr.new .ret 0) with return_emitted := true}
    | some l =>
        if l.op = .ret then σ
        else {emit σ (Instr.new .ret 0) with return_emitted := true}

/-- The arithmetic `OperatorType → OpTag` mapping of
`compile_arithmetic_args`. -/
def arithTag : OperatorType → Except Unit OpTag
  | .Add => .ok .add
  | .Subtract => .ok .sub
  | .Multiply => .ok .mul
  | .Divide => .ok .div
  | .Modulo => .ok .mod
  | .Min => .ok .min
  | .Max => .ok .max
  | _ => .error ()

/-- The comparison `OperatorType → OpTag` mapping of
`compile_comparison_args`. -/
def cmpTag : OperatorType → Except Unit OpTag
  | .Equal => .ok .equal
  | .StrictEqual => .ok .strictEqual
  | .NotEqual => .ok .notEqual
  | .StrictNotEqual => .ok .strictNotEqual
  | .LT => .ok .lessThan
  | .LTE => .ok .lessThanOrEqual
  | .GT => .ok .greaterThan
  | .GTE => .ok .greaterThanOrEqual
  | .In => .ok .inOp
  | _ => .error ()

/-- The logical `OperatorType → OpTag` mapping of `compile_logical_args`. -/
def logicTag : OperatorType → Except Unit OpTag
  | .And => .ok .and
  | .Or => .ok .or
  | .Not => .ok .not
  | .DoubleBang => .ok .dnot
  | _ => .error ()

/-- The reverse `LoadConst` loops of the `ArrayLiteral` branches
(arith / merge / cat / missing / missing_some). -/
def loadConstRevList (σ : LowerState) : List DValue → Except Unit LowerState
  | [] => .ok σ
  | x :: rest => do
      let σ1 ← loadConstRevList σ rest
      let (σ2, idx) ← poolAdd σ1 x
      .ok (emit σ2 (Instr.new .loadConst idx))

/-- Patch every recorded jump index to the given target
(the end-jump loop of `compile_if_args`). -/
def patchAll (σ : LowerState) (idxs : List Nat) (target : Nat) :
    Except Unit LowerState :=
  match idxs with
  | [] => .ok σ
  | j :: rest => do
      let σ1 ← update_jump σ j target
      patchAll σ1 rest target

/-- The condition/value chain of the `ArrayLiteral` branch of
`compile_if_args` (values loaded from the pool), returning the recorded
end-jump indices. -/
def ifChainLit (σ : LowerState) :
    List DValue → List Nat → Except Unit (LowerState × List Nat)
  | [], ejs => .ok (σ, ejs)
  | [d], ejs => do
      let (σ1, idx) ← poolAdd σ d
      .ok (emit σ1 (Instr.new .loadConst idx), ejs)
  | cond :: val :: rest, ejs => do
      let (σ1, ci) ← poolAdd σ cond
      let σ1 := emit σ1 (Instr.new .loadConst ci)
      let (σ2, jn) := emitWithIndex σ1 (Instr.new .jumpIfFalse 0)
      let (σ3, vi) ← poolAdd σ2 val
      let σ3 := emit σ3 (Instr.new .loadConst vi)
      let (σ4, ejs') :=
        if rest.isEmpty then (σ3, ejs)
        else
          let p := emitWithIndex σ3 (Instr.new .jump 0)
          (p.1, ejs ++ [p.2])
      let σ5 ← update_jump σ4 jn σ4.instructions.length
      ifChainLit σ5 rest ejs'

/-- `compile_literal`. -/
def compile_literal (σ : LowerState) (value : DValue) :
    Except Unit LowerState := do
  let (σ1, const_idx) ← poolAdd σ value
  .ok (emit σ1 (Instr.new .loadConst const_idx))

/-- `compile_variable`: path, default (or `Null`) and scope jump (or `-1`)
are added to the pool; only the path index lands in the instruction. -/
def compile_variable (σ : LowerState) (path : DValue) (default : Option DValue)
    (scope_jump : Option Nat) : Except Unit LowerState := do
  let (σ1, path_idx) ← poolAdd σ path
  let (σ2, _) ← poolAdd σ1
    (match default with
     | some d => d
     | none => .null)
  let (σ3, _) ← poolAdd σ2
    (.num (.int (match scope_jump with
                 | some j => (j : Int)
                 | none => -1)))
  .ok (emit σ3 (Instr.new .loadVar path_idx))

/-- `compile_var_args` (the `var` operator): only a literal path (bare or as
the first element of a non-empty argument array) compiles. -/
def compile_var_args (σ : LowerState) (args : ASTNode) :
    Except Unit LowerState :=
  match args with
  | .Array (first :: _) =>
      (match first with
       | .Literal path => do
           let (σ1, path_idx) ← poolAdd σ path
           .ok (emit σ1 (Instr.new .loadVar path_idx))
       | _ => .error ())
  | .Literal path => do
      let (σ1, path_idx) ← poolAdd σ path
      .ok (emit σ1 (Instr.new .loadVar path_idx))
  | _ => .error ()

mutual

/-- The shared compile match of `Lowering::compile` /
`compile_without_return` (the two functions duplicate it verbatim),
fuel-indexed; compile errors, panics and fuel exhaustion are conflated into
the single error. -/
def compile_body : Nat → LowerState → ASTNode → Except Unit LowerState
  | 0, _, _ => .error ()
  | fuel + 1, σ, node =>
      match node with
      | .Literal value => compile_literal σ value
      | .Variable path dflt sj => compile_variable σ path dflt sj
      | .DynamicVariable pe d sj => compile_dynamic_variable fuel σ pe d sj
      | .Operator op_type args => compile_operator fuel σ op_type args
      | .Array items => do
          let σ1 ← compileFwdList fuel σ items
          .ok (emit σ1 (Instr.new .call 0))
      | .ArrayLiteral items => do
          let (σ1, const_idx) ← poolAdd σ (.arr items)
          .ok (emit σ1 (Instr.new .loadConst const_idx))
      | .CustomOperator _ _ => .error ()

/-- `compile_without_return`: the body with the return flag saved, forced
and restored. -/
def compile_without_return : Nat → LowerState → ASTNode → Except Unit LowerState
  | 0, _, _ => .error ()
  | fuel + 1, σ, node => do
      let old := σ.return_emitted
      let σ1 ← compile_body fuel {σ with return_emitted := true} node
      .ok {σ1 with return_emitted := old}

/-- The item loop of the `Array` arm (items compiled in order, then
`Call 0` makes the array). -/
def compileFwdList : Nat → LowerState → List ASTNode → Except Unit LowerState
  | 0, _, _ => .error ()
  | _, σ, [] => .ok σ
  | fuel + 1, σ, x :: rest => do
      let σ1 ← compile_without_return fuel σ x
      compileFwdList fuel σ1 rest

/-- A `for item in items.iter().rev() { compile_without_return(item) }`
loop: later elements are compiled before earlier ones. -/
def compileRevList : Nat → LowerState → List ASTNode → Except Unit LowerState
  | 0, _, _ => .error ()
  | _, σ, [] => .ok σ
  | fuel + 1, σ, x :: rest => do
      let σ1 ← compileRevList fuel σ rest
      compile_without_return fuel σ1 x

/-- `compile_dynamic_variable`. -/
def compile_dynamic_variable :
    Nat → LowerState → ASTNode → Option ASTNode → Option Nat →
      Except Unit LowerState
  | 0, _, _, _, _ => .error ()
  | fuel + 1, σ, path_expr, default, scope_jump => do
      let σ1 ← compile_without_return fuel σ path_expr
      let σ2 ← (match default with
        | some de => compile_without_return fuel σ1 de
        | none => do
            let (σ', null_idx) ← poolAdd σ1 .null
            .ok (emit σ' (Instr.new .loadConst null_idx)))
      let (σ3, sj_idx) ← poolAdd σ2
        (.num (.int (match scope_jump with
                     | some j => (j : Int)
                     | none => -1)))
      let σ4 := emit σ3 (Instr.new .loadConst sj_idx)
      .ok (emit σ4 (Instr.new .loadDynamicVar 0))

/-- `compile_operator`: dispatch on the operator class. -/
def compile_operator :
    Nat → LowerState → OperatorType → ASTNode → Except Unit LowerState
  | 0, _, _, _ => .error ()
  | fuel + 1, σ, op_type, args =>
      match op_type with
      | .Add | .Subtract | .Multiply | .Divide | .Modulo | .Min | .Max =>
          compile_arithmetic_args fuel σ op_type args
      | .Equal | .NotEqual | .LT | .LTE | .GT | .GTE
      | .StrictEqual | .StrictNotEqual | .In =>
          compile_comparison_args fuel σ op_type args
      | .And | .Or | .Not | .DoubleBang =>
          compile_logical_args fuel σ op_type args
      | .If => compile_if_args fuel σ args
      | .Var => compile_var_args σ args
      | .Merge => compile_merge_args fuel σ args
      | .Cat => compile_cat_args fuel σ args
      | .Substring => compile_substr_args fuel σ args
      | .Missing => compile_missing_args fuel σ args
      | .MissingSome => compile_missing_some_args fuel σ args
      | _ => .error ()

/-- `compile_arithmetic_args`. -/
def compile_arithmetic_args :
    Nat → LowerState → OperatorType → ASTNode → Except Unit LowerState
  | 0, _, _, _ => .error ()
  | fuel + 1, σ, op_type, args =>
      match args with
      | .Array items => do
          let σ1 ← compileRevList fuel σ items
          let t ← arithTag op_type
          .ok (emit σ1 (Instr.new .variadic ((t.code <<< 16) ||| items.length)))
      | .ArrayLiteral items => do
          let σ1 ← loadConstRevList σ items
          let t ← arithTag op_type
          .ok (emit σ1 (Instr.new .variadic ((t.code <<< 16) ||| items.length)))
      | .Literal value => do
          let (σ1, const_idx) ← poolAdd σ value
          let σ2 := emit σ1 (Instr.new .loadConst const_idx)
          .ok (emit σ2 (Instr.new .variadic ((OpTag.add.code <<< 16) ||| 1)))
      | _ => .error ()

/-- `compile_comparison_args`. -/
def compile_comparison_args :
    Nat → LowerState → OperatorType → ASTNode → Except Unit LowerState
  | 0, _, _, _ => .error ()
  | fuel + 1, σ, op_type, args => do
      let t ← cmpTag op_type
      match args with
      | .Array items => do
          let σ1 ← compileRevList fuel σ items
          .ok (emit σ1 (Instr.new .variadic ((t.code <<< 16) ||| items.length)))
      | .ArrayLiteral items => do
          let (σ1, const_idx) ← poolAdd σ (.arr items)
          let σ2 := emit σ1 (Instr.new .loadConst const_idx)
          .ok (emit σ2 (Instr.new .variadic ((t.code <<< 16) ||| 1)))
      | _ => .error ()

/-- `compile_logical_args`. -/
def compile_logical_args :
    Nat → LowerState → OperatorType → ASTNode → Except Unit LowerState
  | 0, _, _, _ => .error ()
  | fuel + 1, σ, op_type, args =>
      match args with
      | .Literal value => do
          let (σ1, const_idx) ← poolAdd σ value
          let σ2 := emit σ1 (Instr.new .loadConst const_idx)
          let t ← logicTag op_type
          .ok (emit σ2 (Instr.new .variadic ((t.code <<< 16) ||| 1)))
      | .Array items => do
          let σ1 ← logicalRevList fuel σ items
          (match op_type with
           | .And => .ok (emit σ1 (Instr.new .variadic
               ((OpTag.and.code <<< 16) ||| items.length)))
           | .Or => .ok (emit σ1 (Instr.new .variadic
               ((OpTag.or.code <<< 16) ||| items.length)))
           | .Not =>
               if items.length ≠ 1 then .error ()
               else .ok (emit σ1 (Instr.new .variadic
                 ((OpTag.not.code <<< 16) ||| items.length)))
           | .DoubleBang =>
               if items.length ≠ 1 then .error ()
               else .ok (emit σ1 (Instr.new .variadic
                 ((OpTag.dnot.code <<< 16) ||| items.length)))
           | _ => .error ())
      | .ArrayLiteral items => do
          let (σ1, const_idx) ← poolAdd σ (.arr items)
          let σ2 := emit σ1 (Instr.new .loadConst const_idx)
          let t ← logicTag op_type
          .ok (emit σ2 (Instr.new .variadic ((t.code <<< 16) ||| 1)))
      | _ => .error ()

/-- The special item loop of `compile_logical_args`' `Array` branch:
array-literal items become pool constants and nested arrays are rebuilt
with `Call 0`, preserving them against flattening. -/
def logicalRevList : Nat → LowerState → List ASTNode → Except Unit LowerState
  | 0, _, _ => .error ()
  | _, σ, [] => .ok σ
  | fuel + 1, σ, x :: rest => do
      let σ1 ← logicalRevList fuel σ rest
      match x with
      | .ArrayLiteral array_items => do
          let (σ2, const_idx) ← poolAdd σ1 (.arr array_items)
          .ok (emit σ2 (Instr.new .loadConst const_idx))
      | .Array nested_items =>
          if nested_items.isEmpty then do
            let (σ2, const_idx) ← poolAdd σ1 (.arr [])
            .ok (emit σ2 (Instr.new .loadConst const_idx))
          else do
            let σ2 ← compileRevList fuel σ1 nested_items
            .ok (emit σ2 (Instr.new .call 0))
      | _ => compile_without_return fuel σ1 x

/-- `compile_if_args`. -/
def compile_if_args : Nat → LowerState → ASTNode → Except Unit LowerState
  | 0, _, _ => .error ()
  | fuel + 1, σ, args =>
      match args with
      | .Array items =>
          (match items with
           | [] => do
               let (σ1, const_idx) ← poolAdd σ .null
               .ok (emit σ1 (Instr.new .loadConst const_idx))
           | [single] => compile_without_return fuel σ single
           | _ => do
               let (σ1, ejs) ← ifChain fuel σ items []
               patchAll σ1 ejs σ1.instructions.length)
      | .ArrayLiteral items =>
          (match items with
           | [] => do
               let (σ1, const_idx) ← poolAdd σ .null
               .ok (emit σ1 (Instr.new .loadConst const_idx))
           | [single] => do
               let (σ1, const_idx) ← poolAdd σ single
               .ok (emit σ1 (Instr.new .loadConst const_idx))
           | _ => do
               let (σ1, ejs) ← ifChainLit σ items []
               patchAll σ1 ejs σ1.instructions.length)
      | _ => .error ()

/-- The condition/value chain of `compile_if_args`' `Array` branch: each
`JumpIfFalse` is patched to the instruction after its value (and optional
end-jump); the collected end-jump indices are returned for the final
patch. -/
def ifChain :
    Nat → LowerState → List ASTNode → List Nat →
      Except Unit (LowerState × List Nat)
  | 0, _, _, _ => .error ()
  | _, σ, [], ejs => .ok (σ, ejs)
  | fuel + 1, σ, [d], ejs => do
      let σ1 ← compile_without_return fuel σ d
      .ok (σ1, ejs)
  | fuel + 1, σ, cond :: val :: rest, ejs => do
      let σ1 ← compile_without_return fuel σ cond
      let (σ2, jn) := emitWithIndex σ1 (Instr.new .jumpIfFalse 0)
      let σ3 ← compile_without_return fuel σ2 val
      let (σ4, ejs') :=
        if rest.isEmpty then (σ3, ejs)
        else
          let p := emitWithIndex σ3 (Instr.new .jump 0)
          (p.1, ejs ++ [p.2])
      let σ5 ← update_jump σ4 jn σ4.instructions.length
      ifChain fuel σ5 rest ejs'

/-- `compile_merge_args`. -/
def compile_merge_args : Nat → LowerState → ASTNode → Except Unit LowerState
  | 0, _, _ => .error ()
  | fuel + 1, σ, args =>
      match args with
      | .Array items => do
          let σ1 ← compileRevList fuel σ items
          .ok (emit σ1 (Instr.new .call CallTag.merge.code))
      | .ArrayLiteral items => do
          let σ1 ← loadConstRevList σ items
          .ok (emit σ1 (Instr.new .call CallTag.merge.code))
      | .Literal value => do
          let (σ1, const_idx) ← poolAdd σ value
          let σ2 := emit σ1 (Instr.new .loadConst const_idx)
          .ok (emit σ2 (Instr.new .call CallTag.merge.code))
      | _ => .error ()

/-- `compile_cat_args`. -/
def compile_cat_args : Nat → LowerState → ASTNode → Except Unit LowerState
  | 0, _, _ => .error ()
  | fuel + 1, σ, args =>
      match args with
      | .Array items => do
          let σ1 ← compileRevList fuel σ items
          .ok (emit σ1 (Instr.new .call CallTag.cat.code))
      | .ArrayLiteral items => do
          let σ1 ← loadConstRevList σ items
          .ok (emit σ1 (Instr.new .call CallTag.cat.code))
      | .Literal value => do
          let (σ1, const_idx) ← poolAdd σ value
          let σ2 := emit σ1 (Instr.new .loadConst const_idx)
          .ok (emit σ2 (Instr.new .call CallTag.cat.code))
      | _ => .error ()

/-- `compile_substr_args`: length (if present), then start, then string are
compiled in that order; extra arguments are ignored. -/
def compile_substr_args : Nat → LowerState → ASTNode → Except Unit LowerState
  | 0, _, _ => .error ()
  | fuel + 1, σ, args =>
      match args with
      | .Array (s0 :: s1 :: rest) => do
          let σ1 ← (match rest with
            | l :: _ => compile_without_return fuel σ l
            | [] => .ok σ)
          let σ2 ← compile_without_return fuel σ1 s1
          let σ3 ← compile_without_return fuel σ2 s0
          .ok (emit σ3 (Instr.new .call CallTag.substring.code))
      | .ArrayLiteral (s0 :: s1 :: rest) => do
          let σ1 ← (match rest with
            | l :: _ => do
                let (σ', idx) ← poolAdd σ l
                .ok (emit σ' (Instr.new .loadConst idx))
            | [] => .ok σ)
          let (σ2, i1) ← poolAdd σ1 s1
          let σ2 := emit σ2 (Instr.new .loadConst i1)
          let (σ3, i0) ← poolAdd σ2 s0
          let σ3 := emit σ3 (Instr.new .loadConst i0)
          .ok (emit σ3 (Instr.new .call CallTag.substring.code))
      | _ => .error ()

/-- `compile_missing_args`. -/
def compile_missing_args : Nat → LowerState → ASTNode → Except Unit LowerState
  | 0, _, _ => .error ()
  | fuel + 1, σ, args =>
      match args with
      | .Array items => do
          let σ1 ← compileRevList fuel σ items
          .ok (emit σ1 (Instr.new .call CallTag.missing.code))
      | .ArrayLiteral items => do
          let σ1 ← loadConstRevList σ items
          .ok (emit σ1 (Instr.new .call CallTag.missing.code))
      | .Literal value => do
          let (σ1, const_idx) ← poolAdd σ value
          let σ2 := emit σ1 (Instr.new .loadConst const_idx)
          .ok (emit σ2 (Instr.new .call CallTag.missing.code))
      | .Operator _ _ => do
          let σ1 ← compile_without_return fuel σ args
          .ok (emit σ1 (Instr.new .call CallTag.missing.code))
      | _ => .error ()

/-- `compile_missing_some_args`. -/
def compile_missing_some_args :
    Nat → LowerState → ASTNode → Except Unit LowerState
  | 0, _, _ => .error ()
  | fuel + 1, σ, args =>
      match args with
      | .Array (a0 :: a1 :: _) => do
          let σ1 ← compile_without_return fuel σ a1
          let σ2 ← compile_without_return fuel σ1 a0
          .ok (emit σ2 (Instr.new .call CallTag.missingSome.code))
      | .ArrayLiteral items =>
          if items.length < 2 then .error ()
          else do
            let σ1 ← loadConstRevList σ items
            .ok (emit σ1 (Instr.new .call CallTag.missingSome.code))
      | .Operator _ _ => do
          let σ1 ← compile_without_return fuel σ args
          .ok (emit σ1 (Instr.new .call CallTag.missingSome.code))
      | _ => .error ()

end

/-- `Lowering::compile`: reset the return flag, compile the body, then
`ensure_return`. -/
def lowerCompile (fuel : Nat) (σ : LowerState) (node : ASTNode) :
    Except Unit LowerState := do
  let σ1 ← compile_body fuel {σ with return_emitted := false} node
  .ok (ensure_return σ1)

/-- Top-level `compile` (`src/compiler/mod.rs`): lower from the empty state
and reject programs over 10000 instructions. -/
def compile (fuel : Nat) (node : ASTNode) : Except Unit Program := do
  let σ ← lowerCompile fuel ⟨[], [], false⟩ node
  if σ.instructions.length > 10000 then .error ()
  else .ok ⟨σ.instructions, σ.pool⟩

/-! ## The tree-walking fold evaluator (`src/engine/stack.rs`,
`src/operators/arithmetic.rs`) used for constant folding -/

/-- `f64` negation. -/
def fneg : FP → FP
  | .finite q => .finite (-q)
  | .inf => .neginf
  | .neginf => .inf
  | .nan => .nan

/-- `f64::ceil`. -/
def fceil : FP → FP
  | .finite q => .finite (⌈q⌉ : Int)
  | x => x

/-- `f64::floor`. -/
def ffloor : FP → FP
  | .finite q => .finite (⌊q⌋ : Int)
  | x => x

/-- `f64::min` (returns the other argument when one side is NaN). -/
def fmin : FP → FP → FP
  | .nan, b => b
  | a, .nan => a
  | a, b => if flt b a then b else a

/-- `f64::max`. -/
def fmax : FP → FP → FP
  | .nan, b => b
  | a, .nan => a
  | a, b => if flt a b then b else a

/-- `f64::MAX` exactly. -/
def f64MaxQ : ℚ := (2 ^ 53 - 1) * 2 ^ 971

/-- `convert_number` (`src/operators/arithmetic.rs` lines 11–17): a float
with zero fractional part becomes the truncated integer (`value as i64`);
NaN and the infinities have NaN fractional part and stay floats. -/
def convert_number (f : FP) : DValue :=
  if feq (ffract f) (.finite 0) then .num (.int (fpToI64 f))
  else .num (.float f)

/-- The `coerce_to_number()`-then-`as f64` read of the first operand used
by subtract/divide (the non-`Number` arm is unreachable since coercion
always yields a number, but kept as the source's error). -/
def coerceF64 (v : DValue) : Except Unit FP :=
  match coerce_to_number v with
  | .num (.int i) => .ok (.finite (i : ℚ))
  | .num (.float f) => .ok f
  | _ => .error ()

/-- One fold step coercing the operand and applying an `f64` operation. -/
def foldStep (op : FP → FP → FP) (acc : FP) (val : DValue) : FP :=
  match coerce_to_number val with
  | .num (.int i) => op acc (.finite (i : ℚ))
  | .num (.float f) => op acc f
  | _ => acc

/-- `evaluate_add`: a `DataValue` sum via the `Add` impl, error-propagating. -/
def addFold : DValue → List DValue → Except Unit DValue
  | sum, [] => .ok sum
  | sum, v :: rest => do
      let s ← dvAdd sum (coerce_to_number v)
      addFold s rest

/-- `evaluate_add` (`src/operators/arithmetic.rs` lines 28–41). -/
def evaluate_add (values : List DValue) : Except Unit DValue :=
  match values with
  | [] => .ok (.num (.int 0))
  | _ => addFold (.num (.int 0)) values

/-- `evaluate_subtract` (lines 52–85): unary negation for one operand, else
an `f64` left fold, rendered through `convert_number`. -/
def evaluate_subtract (values : List DValue) : Except Unit DValue :=
  match values with
  | [] => .ok (.num (.int 0))
  | v :: rest => do
      let first ← coerceF64 v
      if rest.isEmpty then .ok (convert_number (fneg first))
      else .ok (convert_number (rest.foldl (foldStep fsub) first))

/-- `evaluate_multiply` (lines 96–113): an `f64` fold from 1.0. -/
def evaluate_multiply (values : List DValue) : Except Unit DValue :=
  match values with
  | [] => .ok (.num (.int 1))
  | _ => .ok (convert_number (values.foldl (foldStep fmul) (.finite 1)))

/-- `evaluate_divide` (lines 124–153): the reciprocal `1.0 / first` for one
operand, else an `f64` left fold — raw float division with no zero check. -/
def evaluate_divide (values : List DValue) : Except Unit DValue :=
  match values with
  | [] => .ok (.num (.int 0))
  | v :: rest => do
      let first ← coerceF64 v
      if rest.isEmpty then .ok (convert_number (fdiv (.finite 1) first))
      else .ok (convert_number (rest.foldl (foldStep fdiv) first))

/-- `evaluate_modulo` (lines 164–189): the first operand is read without
coercion. -/
def evaluate_modulo (values : List DValue) : Except Unit DValue :=
  match values with
  | [] => .ok (.num (.int 0))
  | v :: rest => do
      let first ← (match v with
        | .num (.int i) => .ok (FP.finite (i : ℚ))
        | .num (.float f) => .ok f
        | _ => .error ())
      .ok (convert_number (rest.foldl (foldStep fmod) first))

/-- `evaluate_min` (lines 200–214): an `f64` fold from `f64::MAX`. -/
def evaluate_min (values : List DValue) : Except Unit DValue :=
  match values with
  | [] => .ok (.num (.int 0))
  | _ => .ok (convert_number (values.foldl (foldStep fmin) (.finite f64MaxQ)))

/-- `evaluate_max` (lines 225–239): an `f64` fold from `f64::MIN`. -/
def evaluate_max (values : List DValue) : Except Unit DValue :=
  match values with
  | [] => .ok (.num (.int 0))
  | _ => .ok (convert_number (values.foldl (foldStep fmax) (.finite (-f64MaxQ))))

/-- `evaluate_abs` (lines 250–268): per-element absolute values collected
into an array (the source's unbounded-`Int` model of `i64::abs`). -/
def evaluate_abs (values : List DValue) : Except Unit DValue :=
  match values with
  | [] => .ok (.num (.int 0))
  | _ => .ok (.arr (values.filterMap (fun v =>
      match coerce_to_number v with
      | .num (.int i) => some (.num (.int |i|))
      | .num (.float f) => some (.num (.float (fabs f)))
      | _ => none)))

/-- `evaluate_ceil` (lines 279–297). -/
def evaluate_ceil (values : List DValue) : Except Unit DValue :=
  match values with
  | [] => .ok (.num (.int 0))
  | _ => .ok (.arr (values.filterMap (fun v =>
      match coerce_to_number v with
      | .num (.int i) => some (.num (.int i))
      | .num (.float f) => some (.num (.float (fceil f)))
      | _ => none)))

/-- `evaluate_floor` (lines 308–326). -/
def evaluate_floor (values : List DValue) : Except Unit DValue :=
  match values with
  | [] => .ok (.num (.int 0))
  | _ => .ok (.arr (values.filterMap (fun v =>
      match coerce_to_number v with
      | .num (.int i) => some (.num (.int i))
      | .num (.float f) => some (.num (.float (ffloor f)))
      | _ => none)))

/-- The operator dispatch of `collect_operator_args` (`src/engine/stack.rs`
lines 432–455).  The misc/string/logic operators (`Missing`, `MissingSome`,
`Exists`, `Substring`, `Not`, `DoubleBang`) are not modelled (`error`); the
source's `_` arm is itself an error. -/
def applyFoldOperator (op : OperatorType) (args : List DValue) :
    Except Unit DValue :=
  match op with
  | .Add => evaluate_add args
  | .Subtract => evaluate_subtract args
  | .Multiply => evaluate_multiply args
  | .Divide => evaluate_divide args
  | .Modulo => evaluate_modulo args
  | .Min => evaluate_min args
  | .Max => evaluate_max args
  | .Abs => evaluate_abs args
  | .Ceil => evaluate_ceil args
  | .Floor => evaluate_floor args
  | _ => .error ()

/-- `collect_operator_args` (stack part): drain the newest `count` values
in chronological order, apply the operator, push the result.  The value
stack is modelled head-first (head = newest). -/
def collect_operator_args (op : OperatorType) (count : Nat)
    (values : List DValue) : Except Unit (List DValue) :=
  if values.length < count then .error ()
  else do
    let r ← applyFoldOperator op ((values.take count).reverse)
    .ok (r :: values.drop count)

/-- `collect_array` (`src/engine/stack.rs` lines 379–405). -/
def collect_array (count : Nat) (values : List DValue) :
    Except Unit (List DValue) :=
  if values.length < count then .error ()
  else .ok (.arr ((values.take count).reverse) :: values.drop count)

/-- The path walk of `evaluate_variable`'s `Array` arm; a non-string,
non-integer segment is `unreachable!()` in the source. -/
def varWalk : Option DValue → List DValue → Except Unit (Option DValue)
  | ctx, [] => .ok ctx
  | ctx, item :: rest =>
      match item with
      | .str key => varWalk (dvGet (ctx.getD .null) key) rest
      | .num (.int i) => varWalk (dvGetIndex (ctx.getD .null) i) rest
      | _ => .error ()

/-- `evaluate_variable` (`src/engine/stack.rs` lines 461–525); with a scope
jump present nothing is pushed at all. -/
def evaluate_variable (values : List DValue) (path : DValue)
    (default : Option DValue) (scope_jump : Option Nat) (data : DValue) :
    Except Unit (List DValue) :=
  match scope_jump with
  | some _ => .ok values
  | none =>
      match path with
      | .arr [] => .ok (data :: values)
      | .null => .ok (data :: values)
      | .arr items => do
          let ctx ← varWalk (some data) items
          (match ctx with
           | some c => .ok (c :: values)
           | none =>
               match default with
               | some d => .ok (d :: values)
               | none => .ok (.null :: values))
      | .str key =>
          (match dvGet data key with
           | some v => .ok (v :: values)
           | none =>
               match default with
               | some d => .ok (d :: values)
               | none => .ok (.null :: values))
      | .num (.int i) =>
          (match dvGetIndex data i with
           | some v => .ok (v :: values)
           | none =>
               match default with
               | some d => .ok (d :: values)
               | none => .ok (.null :: values))
      | _ => .error ()

mutual

/-- `process_token` (`src/engine/stack.rs` lines 195–324), fuel-indexed.
Lazy operators (`evaluate_lazy_operator`) and dynamic variables are not
modelled (`error`); custom operators error in the source. -/
def processToken : Nat → DValue → List DValue → ASTNode →
    Except Unit (List DValue)
  | 0, _, _, _ => .error ()
  | fuel + 1, data, values, token =>
      match token with
      | .Literal v => .ok (v :: values)
      | .ArrayLiteral items => .ok (.arr items :: values)
      | .Operator op_type args =>
          if eagerStrategy op_type then
            match args with
            | .ArrayLiteral items =>
                collect_operator_args op_type items.length
                  (items.reverse ++ values)
            | .Array items => do
                let vs ← processList fuel data values items
                collect_operator_args op_type items.length vs
            | _ => do
                let vs ← processToken fuel data values args
                collect_operator_args op_type 1 vs
          else .error ()
      | .Array items => do
          let vs ← processList fuel data values items
          collect_array items.length vs
      | .Variable path dflt sj => evaluate_variable values path dflt sj data
      | .DynamicVariable _ _ _ => .error ()
      | .CustomOperator _ _ => .error ()

/-- The item loop of `process_token`'s `Array` / `Operator`-with-`Array`
arms. -/
def processList : Nat → DValue → List DValue → List ASTNode →
    Except Unit (List DValue)
  | 0, _, _, _ => .error ()
  | _, _, values, [] => .ok values
  | fuel + 1, data, values, x :: rest => do
      let vs ← processToken fuel data values x
      processList fuel data vs rest

end

/-- The engine `evaluate` (`src/engine/stack.rs` lines 152–192) on the
initial stack `[Eval(token)]`: process the token, then require exactly one
value. -/
def foldEval (fuel : Nat) (data : DValue) (t : ASTNode) :
    Except Unit DValue := do
  let vs ← processToken fuel data [] t
  match vs with
  | [r] => .ok r
  | _ => .error ()


set_option maxRecDepth 4096

mutual
/-- A value contains no `NaN` float anywhere. -/
def nanFree : DValue → Bool
  | .num (.float x) => x != FP.nan
  | .arr l => nanFreeList l
  | .obj l => nanFreeObj l
  | _ => true

/-- No `NaN` float in a value list. -/
def nanFreeList : List DValue → Bool
  | [] => true
  | v :: vs => nanFree v && nanFreeList vs

/-- No `NaN` float in an object entry list. -/
def nanFreeObj : List (String × DValue) → Bool
  | [] => true
  | (_, v) :: vs => nanFree v && nanFreeObj vs
end

mutual
/-- `DataValue` equality is reflexive away from NaN. -/
theorem dvEq_refl (v : DValue) (h : nanFree v = true) : dvEq v v = true := by
  cases v with
  | null => simp [dvEq]
  | bool b => simp [dvEq]
  | num n =>
      cases n with
      | int i => simp [dvEq, numEq]
      | float x =>
          simp only [nanFree, bne_iff_ne, ne_eq, decide_eq_true_eq] at h
          cases x <;> simp_all [dvEq, numEq, feq]
  | str s => simp [dvEq]
  | arr l => simpa [dvEq] using dvListEq_refl l (by simpa [nanFree] using h)
  | obj l => simpa [dvEq] using dvObjEq_refl l (by simpa [nanFree] using h)
  | datetime t => simp [dvEq]
  | duration d => simp [dvEq]

/-- List equality is reflexive away from NaN. -/
theorem dvListEq_refl (l : List DValue) (h : nanFreeList l = true) :
    dvListEq l l = true := by
  cases l with
  | nil => simp [dvListEq]
  | cons v vs =>
      simp only [nanFreeList, Bool.and_eq_true] at h
      simp [dvListEq, dvEq_refl v h.1, dvListEq_refl vs h.2]

/-- Object equality is reflexive away from NaN. -/
theorem dvObjEq_refl (l : List (String × DValue)) (h : nanFreeObj l = true) :
    dvObjEq l l = true := by
  cases l with
  | nil => simp [dvObjEq]
  | cons kv vs =>
      obtain ⟨k, v⟩ := kv
      simp only [nanFreeObj, Bool.and_eq_true] at h
      simp [dvObjEq, dvEq_refl v h.1, dvObjEq_refl vs h.2]
end

/-- C8 helper: swapping the arguments of `qcmp` swaps the ordering. -/
theorem qcmp_swap (a b : ℚ) : qcmp b a = (qcmp a b).swap := by
  unfold qcmp
  rcases lt_trichotomy a b with h | h | h
  · simp [h, not_lt.mpr h.le, h.ne.symm, Ordering.swap]
  · simp [h, Ordering.swap]
  · simp [h, not_lt.mpr h.le, h.ne.symm, Ordering.swap]

/-- C8 helper: swapping the arguments of `fcmp` swaps the ordering. -/
theorem fcmp_swap (x y : FP) : fcmp y x = (fcmp x y).map Ordering.swap := by
  cases x <;> cases y <;>
    first
      | (simp [fcmp, Ordering.swap]; done)
      | (simp only [fcmp, Option.map]; rw [qcmp_swap])

/-- C8 helper: `getD .eq` commutes with swapping. -/
theorem getD_swap (o : Option Ordering) :
    ((o.map Ordering.swap).getD .eq) = (o.getD .eq).swap := by
  cases o <;> simp [Ordering.swap]

/-- C8 helper: swapping the arguments of `natCmp` swaps the ordering. -/
theorem natCmp_swap (a b : Nat) : natCmp b a = (natCmp a b).swap := by
  unfold natCmp
  by_cases h1 : a < b
  · simp [h1, Nat.lt_asymm h1, (Nat.ne_of_lt h1).symm, Ordering.swap]
  · by_cases h2 : a = b
    · simp [h2, Ordering.swap]
    · have h3 : b < a := by omega
      simp [h1, h2, h3, Ordering.swap]

/-- C8 helper: swapping the arguments of `charListCmp` swaps the ordering. -/
theorem charListCmp_swap (a b : List Char) :
    charListCmp b a = (charListCmp a b).swap := by
  induction a generalizing b with
  | nil => cases b <;> simp [charListCmp, Ordering.swap]
  | cons c cs ih =>
      cases b with
      | nil => simp [charListCmp, Ordering.swap]
      | cons d ds =>
          simp only [charListCmp]
          rw [natCmp_swap]
          cases h : natCmp c.toNat d.toNat <;> simp [Ordering.swap, ih]

/-- C8 helper: swapping the arguments of `strCmp` swaps the ordering. -/
theorem strCmp_swap (a b : String) : strCmp b a = (strCmp a b).swap := by
  unfold strCmp
  exact charListCmp_swap a.data b.data

/-- C8 helper: swapping the arguments of `boolCmp` swaps the ordering. -/
theorem boolCmp_swap (a b : Bool) : boolCmp b a = (boolCmp a b).swap := by
  cases a <;> cases b <;> rfl

/-- C8 helper: a boolean on the left compares as its 0/1 integer. -/
theorem compare_boolL (b' : Bool) (r : DValue) (h : typeOrder r ≠ 1) :
    compare_values (.bool b') r
      = compare_values (.num (.int (if b' then 1 else 0))) r := by
  cases r <;> first
    | (exact absurd rfl h)
    | simp [compare_values]

/-- C8 helper: a boolean on the right compares as its 0/1 integer. -/
theorem compare_boolR (l : DValue) (b' : Bool) (h : typeOrder l ≠ 1) :
    compare_values l (.bool b')
      = compare_values l (.num (.int (if b' then 1 else 0))) := by
  cases l <;> first
    | (exact absurd rfl h)
    | simp [compare_values]

/-- C8: simultaneous induction kernel for antisymmetry of `compare_values`
and of its array-element loop, on a size bound. -/
theorem swap_aux (k : Nat) :
    (∀ a b : DValue, dvSize a + dvSize b ≤ k →
        compare_values b a = (compare_values a b).swap) ∧
    (∀ as_ bs : List DValue, dvListSize as_ + dvListSize bs + 1 ≤ k →
        compareZip bs as_ = (compareZip as_ bs).map Ordering.swap) := by
  induction k with
  | zero =>
      constructor
      · intro a b hk
        have := dvSize_pos a
        omega
      · intro as_ bs hk
        omega
  | succ k ih =>
      obtain ⟨ihv, ihz⟩ := ih
      constructor
      · intro a b hk
        cases a with
        | bool a' =>
            cases b
            case bool =>
              simp only [compare_values]
              exact boolCmp_swap a' _
            all_goals
              rw [compare_boolR _ a' (by simp [typeOrder]),
                  compare_boolL a' _ (by simp [typeOrder])]
            all_goals
              refine ihv _ _ ?_
            all_goals simp only [dvSize] at hk ⊢
            all_goals omega
        | num n =>
            cases b
            case bool b' =>
              rw [compare_boolL b' _ (by simp [typeOrder]),
                  compare_boolR _ b' (by simp [typeOrder])]
              refine ihv _ _ ?_
              simp only [dvSize] at hk ⊢
              omega
            case num m =>
              simp only [compare_values]
              rw [fcmp_swap, getD_swap]
            case str s =>
              simp only [compare_values]
              cases hp : parseF64 s with
              | none => simp [Ordering.swap]
              | some sv =>
                  cases hc : fcmp (numToF64 n) sv with
                  | none => simp [hc, Ordering.swap]
                  | some o => cases o <;> simp [hc, Ordering.swap]
            all_goals simp [compare_values, typeOrder, natCmp, Ordering.swap]
        | str s =>
            cases b
            case bool b' =>
              rw [compare_boolL b' _ (by simp [typeOrder]),
                  compare_boolR _ b' (by simp [typeOrder])]
              refine ihv _ _ ?_
              simp only [dvSize] at hk ⊢
              omega
            case num m =>
              simp only [compare_values]
              cases hp : parseF64 s with
              | none => simp [Ordering.swap]
              | some sv =>
                  cases hc : fcmp (numToF64 m) sv with
                  | none => simp [hc, Ordering.swap]
                  | some o => cases o <;> simp [hc, Ordering.swap]
            case str t =>
              simp only [compare_values]
              exact strCmp_swap s t
            all_goals simp [compare_values, typeOrder, natCmp, Ordering.swap]
        | arr l =>
            cases b
            case bool b' =>
              rw [compare_boolL b' _ (by simp [typeOrder]),
                  compare_boolR _ b' (by simp [typeOrder])]
              refine ihv _ _ ?_
              simp only [dvSize] at hk ⊢
              omega
            case arr m =>
              simp only [compare_values]
              rw [ihz l m (by simp only [dvSize] at hk; omega)]
              cases hz : compareZip l m with
              | none =>
                  show natCmp m.length l.length = (natCmp l.length m.length).swap
                  exact natCmp_swap _ _
              | some o => rfl
            all_goals simp [compare_values, typeOrder, natCmp, Ordering.swap]
        | null =>
            cases b
            case bool b' =>
              rw [compare_boolL b' _ (by simp [typeOrder]),
                  compare_boolR _ b' (by simp [typeOrder])]
              refine ihv _ _ ?_
              simp only [dvSize] at hk ⊢
              omega
            all_goals simp [compare_values, typeOrder, natCmp, Ordering.swap]
        | obj e =>
            cases b
            case bool b' =>
              rw [compare_boolL b' _ (by simp [typeOrder]),
                  compare_boolR _ b' (by simp [typeOrder])]
              refine ihv _ _ ?_
              simp only [dvSize] at hk ⊢
              omega
            all_goals simp [compare_values, typeOrder, natCmp, Ordering.swap]
        | datetime t =>
            cases b
            case bool b' =>
              rw [compare_boolL b' _ (by simp [typeOrder]),
                  compare_boolR _ b' (by simp [typeOrder])]
              refine ihv _ _ ?_
              simp only [dvSize] at hk ⊢
              omega
            all_goals simp [compare_values, typeOrder, natCmp, Ordering.swap]
        | duration d =>
            cases b
            case bool b' =>
              rw [compare_boolL b' _ (by simp [typeOrder]),
                  compare_boolR _ b' (by simp [typeOrder])]
              refine ihv _ _ ?_
              simp only [dvSize] at hk ⊢
              omega
            all_goals simp [compare_values, typeOrder, natCmp, Ordering.swap]
      · intro as_ bs hk
        cases as_ with
        | nil => cases bs <;> simp [compareZip]
        | cons a as2 =>
            cases bs with
            | nil => simp [compareZip]
            | cons b bs2 =>
                simp only [compareZip]
                rw [ihv a b (by
                  simp only [dvListSize] at hk
                  have := dvSize_pos a
                  have := dvSize_pos b
                  omega)]
                cases h : compare_values a b with
                | eq =>
                    simp only [Ordering.swap]
                    exact ihz as2 bs2 (by
                      simp only [dvListSize] at hk
                      have := dvSize_pos a
                      have := dvSize_pos b
                      omega)
                | lt => rfl
                | gt => rfl

/-- `compare_values` is antisymmetric: swapping the arguments swaps the
ordering. -/
theorem compare_swap (a b : DValue) :
    compare_values b a = (compare_values a b).swap :=
  (swap_aux (dvSize a + dvSize b)).1 a b le_rfl

/-- The zipped element loop of the array arm is antisymmetric. -/
theorem compareZip_swap (as_ bs : List DValue) :
    compareZip bs as_ = (compareZip as_ bs).map Ordering.swap :=
  (swap_aux (dvListSize as_ + dvListSize bs + 1)).2 as_ bs le_rfl

/-- C8 helper: `qcmp` returns `Equal` only on equal rationals. -/
theorem qcmp_eq_iff (a b : ℚ) : qcmp a b = .eq ↔ a = b := by
  unfold qcmp
  rcases lt_trichotomy a b with h | h | h
  · simp [h, h.ne]
  · simp [h]
  · simp [not_lt.mpr h.le, (ne_of_gt h).symm, ne_of_gt h]

/-- C8 helper: `charListCmp` returns `Equal` only on equal lists. -/
theorem charListCmp_eq (a b : List Char) (h : charListCmp a b = .eq) : a = b := by
  induction a generalizing b with
  | nil => cases b with
    | nil => rfl
    | cons d ds => simp [charListCmp] at h
  | cons c cs ih =>
      cases b with
      | nil => simp [charListCmp] at h
      | cons d ds =>
          simp only [charListCmp] at h
          have hcd : c = d := by
            rcases ho : natCmp c.toNat d.toNat with _ | _ | _ <;> rw [ho] at h
            · simp at h
            · unfold natCmp at ho
              have : c.toNat = d.toNat := by
                by_cases h1 : c.toNat < d.toNat
                · simp [h1] at ho
                · by_cases h2 : c.toNat = d.toNat
                  · exact h2
                  · simp [h1, h2] at ho
              exact Char.ext (UInt32.ext this)
            · simp at h
          subst hcd
          have : charListCmp cs ds = .eq := by
            rcases ho : natCmp c.toNat c.toNat with _ | _ | _ <;> rw [ho] at h <;>
              first | exact h | simp at h
          rw [ih ds this]

/-- C8 helper: `strCmp` returns `Equal` only on equal strings. -/
theorem strCmp_eq (a b : String) (h : strCmp a b = .eq) : a = b := by
  unfold strCmp at h
  cases a; cases b
  exact congrArg String.mk (charListCmp_eq _ _ h)

/-- Evaluation lemma: `"1.0"` parses as the double `1`. -/
theorem parseF64_one_point_zero : parseF64 "1.0" = some (.finite 1) := by
  simp [parseF64, splitAtChar, allDigits, digitsToNat, digitVal, String.data]

/-- Evaluation lemma: `"3"` parses as the double `3`. -/
theorem parseF64_three : parseF64 "3" = some (.finite 3) := by
  simp [parseF64, splitAtChar, allDigits, digitsToNat, digitVal, String.data]

/-- Rounding to 53-bit precision is the identity up to `2^53`. -/
theorem roundToF64Nat_small (n : Nat) (h : n ≤ 2 ^ 53) : roundToF64Nat n = n := by
  unfold roundToF64Nat; rw [if_pos h]

/-- The `i64 as f64` cast is exact on integers of magnitude at most `2^53`. -/
theorem i64ToF64_exact (i : Int) (h : i.natAbs ≤ 2 ^ 53) :
    i64ToF64 i = .finite i := by
  unfold i64ToF64
  split <;> rename_i h0
  · have ht : i.toNat = i.natAbs := by omega
    rw [ht, roundToF64Nat_small _ h]
    congr 1
    rw [Int.cast_natAbs]
    exact_mod_cast abs_of_nonneg h0
  · rw [roundToF64Nat_small _ h]
    congr 1
    push_neg at h0
    rw [Int.cast_natAbs, abs_of_neg h0]
    push_cast
    ring

/-- `numToF64` on a small integer is the exact rational. -/
theorem numToF64_int_small (i : Int) (h : i.natAbs ≤ 2 ^ 53) :
    numToF64 (.int i) = .finite i := by
  simp [numToF64, i64ToF64_exact i h]

/-- `numToF64` always produces a finite value on an integer. -/
theorem numToF64_int_finite (i : Int) :
    ∃ c : ℚ, numToF64 (.int i) = .finite c := by
  simp only [numToF64]
  unfold i64ToF64
  split
  · exact ⟨_, rfl⟩
  · exact ⟨_, rfl⟩

/-- `2^53 + 1` is a 54-bit number. -/
theorem log2_pow53_succ : Nat.log2 (2 ^ 53 + 1) = 53 := by
  rw [Nat.log2_eq_log_two]
  exact Nat.log_eq_of_pow_le_of_lt_pow (by norm_num) (by norm_num)

/-- `2^53 + 1` rounds down to `2^53` (a tie, and `2^52` is even). -/
theorem roundToF64Nat_pow53_succ : roundToF64Nat (2 ^ 53 + 1) = 2 ^ 53 := by
  unfold roundToF64Nat
  rw [if_neg (by norm_num)]
  simp only [log2_pow53_succ]
  norm_num

/-- The cast is exact at `2^53` itself. -/
theorem i64ToF64_pow53 : i64ToF64 (2 ^ 53) = .finite ((2 : ℚ) ^ 53) := by
  have h : i64ToF64 (2 ^ 53) = .finite ((2 ^ 53 : Int) : ℚ) :=
    i64ToF64_exact _ (by rw [Int.natAbs_pow]; norm_num)
  rw [h]
  congr 1

/-- The cast rounds `2^53 + 1` to `2^53`. -/
theorem i64ToF64_pow53_succ : i64ToF64 (2 ^ 53 + 1) = .finite ((2 : ℚ) ^ 53) := by
  unfold i64ToF64
  rw [if_pos (by positivity)]
  have ht : (2 ^ 53 + 1 : Int).toNat = 2 ^ 53 + 1 := by omega
  rw [ht, roundToF64Nat_pow53_succ]
  congr 1

/-- The amended domain for the `Equal ⇒ loose_equals` half of claim C8:
Null, an integer `Number` of magnitude at most `2^53` (the range on which
the `i64 as f64` cast is exact), or a `String` that does not parse as NaN. -/
def plainScalar : DValue → Bool
  | .null => true
  | .num (.int i) => i.natAbs ≤ 2 ^ 53
  | .str s => parseF64 s != some FP.nan
  | _ => false

/-- C8 helper: an integer that compares `Equal` to a string is loosely equal
to it. -/
theorem eq_implies_loose_num_str (i : Int) (s : String)
    (hs : parseF64 s ≠ some FP.nan)
    (h : compare_values (.num (.int i)) (.str s) = .eq) :
    loose_equals (.num (.int i)) (.str s) = true := by
  obtain ⟨c, hc⟩ := numToF64_int_finite i
  cases hp : parseF64 s with
  | none => simp [compare_values, hp] at h
  | some sv =>
      cases sv with
      | nan => exact absurd hp hs
      | inf => simp [compare_values, hp, hc, fcmp] at h
      | neginf => simp [compare_values, hp, hc, fcmp] at h
      | finite q =>
          simp only [compare_values, hp, hc, fcmp, Option.getD] at h
          have hq : c = q := (qcmp_eq_iff _ _).mp h
          simp only [loose_equals, hp, hc]
          rw [← hq]
          norm_num [fsub, fabs, flt, fcmp, epsFP, qcmp]
          decide

/-- C8 helper: `Ordering.swap` fixes only `Equal`. -/
theorem swap_eq_iff (o : Ordering) : o.swap = .eq ↔ o = .eq := by
  cases o <;> simp [Ordering.swap]

/-- C8, second half (amended): on Null / integer-Number / non-NaN-String
values, `compare_values` returning `Equal` implies `loose_equals`. -/
theorem compare_eq_implies_loose (a b : DValue)
    (ha : plainScalar a = true) (hb : plainScalar b = true)
    (h : compare_values a b = .eq) : loose_equals a b = true := by
  cases a with
  | null =>
      cases b with
      | null => simp [loose_equals, dvEq]
      | num m => simp [compare_values] at h
      | str s => simp [compare_values] at h
      | bool x => simp [plainScalar] at hb
      | arr l => simp [plainScalar] at hb
      | obj l => simp [plainScalar] at hb
      | datetime t => simp [plainScalar] at hb
      | duration d => simp [plainScalar] at hb
  | num n =>
      cases n with
      | float x => simp [plainScalar] at ha
      | int i =>
          cases b with
          | null => simp [compare_values] at h
          | num m =>
              cases m with
              | float x => simp [plainScalar] at hb
              | int j =>
                  have hia : i.natAbs ≤ 2 ^ 53 := by
                    simpa [plainScalar] using ha
                  have hja : j.natAbs ≤ 2 ^ 53 := by
                    simpa [plainScalar] using hb
                  simp only [compare_values, numToF64_int_small i hia,
                    numToF64_int_small j hja, fcmp, Option.getD] at h
                  have hq : (i : ℚ) = (j : ℚ) := (qcmp_eq_iff _ _).mp h
                  have hij : i = j := by exact_mod_cast hq
                  subst hij
                  simp [loose_equals, dvEq, numEq]
          | str s =>
              exact eq_implies_loose_num_str i s
                (by simpa [plainScalar] using hb) h
          | bool x => simp [plainScalar] at hb
          | arr l => simp [plainScalar] at hb
          | obj l => simp [plainScalar] at hb
          | datetime t => simp [plainScalar] at hb
          | duration d => simp [plainScalar] at hb
  | str s =>
      cases b with
      | null => simp [compare_values] at h
      | num m =>
          cases m with
          | float x => simp [plainScalar] at hb
          | int i =>
              have hsw := compare_swap (.num (.int i)) (.str s)
              rw [h] at hsw
              have hin : compare_values (.num (.int i)) (.str s) = .eq :=
                (swap_eq_iff _).mp hsw.symm
              have := eq_implies_loose_num_str i s
                (by simpa [plainScalar] using ha) hin
              simpa [loose_equals] using this
      | str t =>
          simp only [compare_values] at h
          have := strCmp_eq s t h
          subst this
          simp [loose_equals, dvEq]
      | bool x => simp [plainScalar] at hb
      | arr l => simp [plainScalar] at hb
      | obj l => simp [plainScalar] at hb
      | datetime t => simp [plainScalar] at hb
      | duration d => simp [plainScalar] at hb
  | bool x => simp [plainScalar] at ha
  | arr l => simp [plainScalar] at ha
  | obj l => simp [plainScalar] at ha
  | datetime t => simp [plainScalar] at ha
  | duration d => simp [plainScalar] at ha

/-- C7 (amended): for every value that contains no NaN float,
`loose_equals(v, v)` and `strict_equals(v, v)` hold.  (For a NaN float both
fail — see the counterexample.) -/
theorem claim_C7 (v : DValue) (h : nanFree v = true) :
    loose_equals v v = true ∧ strict_equals v v = true := by
  have hd : dvEq v v = true := dvEq_refl v h
  constructor
  · cases v <;> simpa [loose_equals] using hd
  · simp [strict_equals, hd]

/-- C7 witness: reflexivity at the concrete NaN-free value
`[1, "x", {"k": 2.0}]`. -/
theorem claim_C7_witness :
    loose_equals (.arr [.num (.int 1), .str "x", .obj [("k", .num (.float (.finite 2)))]])
        (.arr [.num (.int 1), .str "x", .obj [("k", .num (.float (.finite 2)))]]) = true
    ∧ strict_equals (.arr [.num (.int 1), .str "x", .obj [("k", .num (.float (.finite 2)))]])
        (.arr [.num (.int 1), .str "x", .obj [("k", .num (.float (.finite 2)))]]) = true :=
  claim_C7 _ (by simp [nanFree, nanFreeList, nanFreeObj, feq])

/-- C7 counterexample: at `v = Float(NaN)` both `loose_equals(v, v)` and
`strict_equals(v, v)` are false, because both fall back to `==` on
`DataValue`, which is IEEE equality on floats. -/
theorem claim_C7_counterexample :
    loose_equals (.num (.float .nan)) (.num (.float .nan)) = false
    ∧ strict_equals (.num (.float .nan)) (.num (.float .nan)) = false := by
  constructor
  · simp [loose_equals, dvEq, numEq, feq]
  · simp [strict_equals, dvEq, numEq, feq]

/-- C8 (amended): swapping the arguments of `compare_values` swaps `Less`
and `Greater`; and `compare_values(a, b) = Equal` implies
`loose_equals(a, b)` when each of `a`, `b` is Null, an integer Number of
magnitude at most `2^53`, or a String that does not spell NaN.  (The
implication fails off this domain — for booleans, and for larger integers,
where the `i64 as f64` cast of `compare_values` rounds; see the
counterexample.) -/
theorem claim_C8 :
    (∀ a b : DValue, compare_values a b = .lt ↔ compare_values b a = .gt)
    ∧ (∀ a b : DValue, plainScalar a = true → plainScalar b = true →
        compare_values a b = .eq → loose_equals a b = true) := by
  constructor
  · intro a b
    rw [compare_swap a b]
    cases compare_values a b <;> simp [Ordering.swap]
  · exact compare_eq_implies_loose

/-- C8 witness: both halves at concrete inputs — `1 < 2` flips to `2 > 1`,
and `3 == "3"` follows from `compare(3, "3") = Equal`. -/
theorem claim_C8_witness :
    compare_values (.num (.int 2)) (.num (.int 1)) = .gt
    ∧ loose_equals (.num (.int 3)) (.str "3") = true := by
  constructor
  · exact (claim_C8.1 (.num (.int 1)) (.num (.int 2))).mp
      (by simp [compare_values, numToF64_int_small 1 (by decide),
            numToF64_int_small 2 (by decide), fcmp, qcmp])
  · exact claim_C8.2 (.num (.int 3)) (.str "3")
      (by decide)
      (by simp [plainScalar, parseF64_three])
      (by simp [compare_values, parseF64_three,
            numToF64_int_small 3 (by decide), fcmp, qcmp])

/-- `numToF64` is exact at `Integer(2^53)`. -/
theorem numToF64_pow53 : numToF64 (.int (2 ^ 53)) = .finite ((2 : ℚ) ^ 53) := by
  simp only [numToF64]; exact i64ToF64_pow53

/-- `numToF64` rounds `Integer(2^53 + 1)` down to `2^53`. -/
theorem numToF64_pow53_succ :
    numToF64 (.int (2 ^ 53 + 1)) = .finite ((2 : ℚ) ^ 53) := by
  simp only [numToF64]; exact i64ToF64_pow53_succ

/-- The Number/Number arm of `compare_values` at the pair
`(2^53, 2^53 + 1)`. -/
theorem compare_pow53_unfold :
    compare_values (.num (.int (2 ^ 53))) (.num (.int (2 ^ 53 + 1)))
      = (fcmp (numToF64 (.int (2 ^ 53))) (numToF64 (.int (2 ^ 53 + 1)))).getD .eq := by
  simp only [compare_values]

/-- Both casts land on the same double, so the float comparison ties. -/
theorem fcmp_pow53 :
    fcmp (numToF64 (.int (2 ^ 53))) (numToF64 (.int (2 ^ 53 + 1))) = some .eq := by
  rw [numToF64_pow53, numToF64_pow53_succ]
  simp only [fcmp]
  exact congrArg some ((qcmp_eq_iff _ _).mpr rfl)

/-- C8 counterexample: `compare(true, "1.0") = Equal` (the boolean compares
as the number 1, and `"1.0"` parses as 1) but `loose_equals(true, "1.0")` is
false (the Bool↔String arm accepts only `"true"/"false"/"1"/"0"`); and
`compare(Integer(2^53), Integer(2^53 + 1)) = Equal` (the `i64 as f64` cast
rounds `2^53 + 1` to `2^53`) while `loose_equals` on that pair is false
(exact `PartialEq` on distinct integers).  So `compare = Equal` does not
imply `loose_equals` as claimed. -/
theorem claim_C8_counterexample :
    (compare_values (.bool true) (.str "1.0") = .eq
      ∧ loose_equals (.bool true) (.str "1.0") = false)
    ∧ (compare_values (.num (.int (2 ^ 53))) (.num (.int (2 ^ 53 + 1))) = .eq
      ∧ loose_equals (.num (.int (2 ^ 53))) (.num (.int (2 ^ 53 + 1))) = false) := by
  refine ⟨⟨?_, ?_⟩, ?_, ?_⟩
  · simp [compare_values, parseF64_one_point_zero,
      numToF64_int_small 1 (by decide), fcmp, qcmp]
  · simp [loose_equals]
  · rw [compare_pow53_unfold, fcmp_pow53]
    rfl
  · simp [loose_equals, dvEq, numEq]

/-- The last element of `x :: rest` as an `Option.getD` over `getLast?`. -/
theorem lastGetD_cons (a x : DValue) (rest : List DValue) :
    ((a :: rest).getLast?).getD x = (rest.getLast?).getD a := by
  induction rest generalizing a x with
  | nil => rfl
  | cons b t ih => rw [List.getLast?_cons_cons, ih b x, ih b a]

/-- `andLoop` returns the first falsy element, else the last element. -/
theorem andLoop_spec (rest : List DValue) (x : DValue) :
    andLoop x rest =
      ((x :: rest).find? (fun v => !(is_truthy v))).getD ((rest.getLast?).getD x) := by
  induction rest generalizing x with
  | nil => cases h : is_truthy x <;> simp [andLoop, List.find?, h]
  | cons a t ih =>
      cases h : is_truthy x with
      | false => simp [andLoop, List.find?, h]
      | true => simp [andLoop, List.find?, h, ih a, lastGetD_cons]

/-- `orLoop` on a non-empty list ignores its seed and returns the first
truthy element, else the last element. -/
theorem orLoop_spec (rest : List DValue) : ∀ x d : DValue,
    orLoop d (x :: rest) =
      ((x :: rest).find? (fun v => is_truthy v)).getD ((rest.getLast?).getD x) := by
  induction rest with
  | nil => intro x d; cases h : is_truthy x <;> simp [orLoop, List.find?, h]
  | cons a t ih =>
      intro x d
      cases h : is_truthy x with
      | true => simp [orLoop, List.find?, h]
      | false =>
          calc orLoop d (x :: a :: t) = orLoop x (a :: t) := by simp [orLoop, h]
          _ = ((a :: t).find? (fun v => is_truthy v)).getD ((t.getLast?).getD a) :=
                ih a x
          _ = ((x :: a :: t).find? (fun v => is_truthy v)).getD
                (((a :: t).getLast?).getD x) := by
                simp [List.find?, h, lastGetD_cons]

/-- A divisor that coerces to zero makes the division fold return integer 0,
whatever the accumulated value. -/
theorem divLoop_zero (rest : List DValue) :
    ∀ result : DValue, (∃ d ∈ rest, isZeroNum (coerce_to_number d) = true) →
      divLoop result rest = .num (.int 0) := by
  induction rest with
  | nil => intro result h; simp at h
  | cons a t ih =>
      intro result h
      by_cases hz : isZeroNum (coerce_to_number a) = true
      · simp [divLoop, hz]
      · have h' : ∃ d ∈ t, isZeroNum (coerce_to_number d) = true := by
          rcases h with ⟨d, hd, hdz⟩
          rcases List.mem_cons.mp hd with rfl | hmem
          · exact absurd hdz hz
          · exact ⟨d, hmem, hdz⟩
        simp only [divLoop]
        rw [if_neg hz]
        cases hdv : dvDiv result (coerce_to_number a) with
        | ok v => simp [hdv, ih v h']
        | error e => simp [hdv, ih result h']

/-- C2: the 0-ary division yields integer 0, and an n-ary division whose
tail contains an operand coercing to zero yields integer 0 with no error;
but the 1-ary form (reciprocal) is not guarded — see the counterexample. -/
theorem claim_C2 :
    applyVariadic .div [] = some (.num (.int 0)) ∧
    (∀ x rest, (∃ d ∈ rest, isZeroNum (coerce_to_number d) = true) →
      applyVariadic .div (x :: rest) = some (.num (.int 0))) := by
  refine ⟨rfl, fun x rest h => ?_⟩
  cases rest with
  | nil => simp at h
  | cons d t =>
      simp only [applyVariadic]
      rw [divLoop_zero (d :: t) (coerce_to_number x) h]

/-- C2 witness: `{"/": [6, 0]}` yields integer 0. -/
theorem claim_C2_witness :
    (∃ d ∈ ([DValue.num (.int 0)] : List DValue),
        isZeroNum (coerce_to_number d) = true) ∧
    applyVariadic .div [DValue.num (.int 6), DValue.num (.int 0)] =
      some (.num (.int 0)) := by
  have hex : ∃ d ∈ ([DValue.num (.int 0)] : List DValue),
      isZeroNum (coerce_to_number d) = true :=
    ⟨DValue.num (.int 0), by simp, by decide⟩
  exact ⟨hex, claim_C2.2 (DValue.num (.int 6)) [DValue.num (.int 0)] hex⟩

/-- C2 counterexample: the 1-ary `{"/": [0]}` computes `1.0 / 0` with no
zero check and yields float infinity, not 0. -/
theorem claim_C2_counterexample :
    applyVariadic .div [DValue.num (.int 0)] = some (.num (.float .inf)) ∧
    applyVariadic .div [DValue.num (.int 0)] ≠ some (.num (.int 0)) := by
  constructor
  · simp [applyVariadic, dvDiv, coerce_to_number, numToF64,
      i64ToF64_exact 0 (by decide), fdiv]
  · simp [applyVariadic, dvDiv, coerce_to_number, numToF64,
      i64ToF64_exact 0 (by decide), fdiv]

/-- C3: the VM's `==` arm yields `false` (not `true`) whenever fewer than
two operands remain after flattening. -/
theorem claim_C3 (args : List DValue) (h : args.length < 2) :
    applyVariadic .equal args = some (.bool false) := by
  simp only [applyVariadic]
  rw [if_pos h]

/-- C3 witness: a single operand. -/
theorem claim_C3_witness :
    ([DValue.num (.int 5)] : List DValue).length < 2 ∧
    applyVariadic .equal [DValue.num (.int 5)] = some (.bool false) :=
  ⟨by decide, claim_C3 [DValue.num (.int 5)] (by decide)⟩

/-- C3 counterexample: with 0 or 1 operand the result is `false`, not the
`true` the specification promises. -/
theorem claim_C3_counterexample :
    applyVariadic .equal [] = some (.bool false) ∧
    applyVariadic .equal [DValue.num (.int 5)] = some (.bool false) ∧
    (DValue.bool false) ≠ (DValue.bool true) := by
  refine ⟨rfl, rfl, by simp⟩

/-- C4: `And` of no operands is `true`; `And` of a non-empty operand list
returns its first falsy element, else its last element; `Or` returns the
first truthy element, else the last element — the actual values, not
booleans. -/
theorem claim_C4 :
    applyVariadic .and [] = some (.bool true) ∧
    (∀ x rest, applyVariadic .and (x :: rest) =
        some (((x :: rest).find? (fun v => !(is_truthy v))).getD
          ((rest.getLast?).getD x))) ∧
    (∀ x rest, applyVariadic .or (x :: rest) =
        some (((x :: rest).find? (fun v => is_truthy v)).getD
          ((rest.getLast?).getD x))) := by
  refine ⟨rfl, fun x rest => ?_, fun x rest => ?_⟩
  · simp only [applyVariadic]
    rw [andLoop_spec]
  · simp only [applyVariadic]
    rw [orLoop_spec]

/-- C4 witness: `And [1, false, 3]` is the operand `false` itself, and
`Or [0, "x"]` is the operand `"x"` itself. -/
theorem claim_C4_witness :
    applyVariadic .and [DValue.num (.int 1), DValue.bool false, DValue.num (.int 3)] =
      some (DValue.bool false) ∧
    applyVariadic .or [DValue.num (.int 0), DValue.str "x"] =
      some (DValue.str "x") := by
  constructor
  · have h := claim_C4.2.1 (DValue.num (.int 1))
      [DValue.bool false, DValue.num (.int 3)]
    simpa [List.find?, is_truthy] using h
  · have h := claim_C4.2.2 (DValue.num (.int 0)) [DValue.str "x"]
    simpa [List.find?, is_truthy] using h

/-- C5: when execution reaches the end of the program with an empty operand
stack, `run` returns `Null` as an ordinary result value; its return type
carries no error at all. -/
theorem claim_C5 (p : Program) (data : DValue) (fuel : Nat)
    (h : runLoop p data fuel 0 [] = some []) :
    vmRun p data fuel = some DValue.null := by
  simp [vmRun, h]

/-- C5 witness: a program of a single `Return` finishes with an empty
stack and `run` yields `Null`. -/
theorem claim_C5_witness :
    runLoop ⟨[⟨.ret, 0⟩], []⟩ .null 2 0 [] = some [] ∧
    vmRun ⟨[⟨.ret, 0⟩], []⟩ .null 2 = some DValue.null :=
  ⟨rfl, claim_C5 ⟨[⟨.ret, 0⟩], []⟩ .null 2 rfl⟩

/-- C5 counterexample: the final-`Return`-on-empty-stack state is not
surfaced as an error — `run` produces the ordinary value `Null`. -/
theorem claim_C5_counterexample :
    vmRun ⟨[⟨.ret, 0⟩], []⟩ .null 2 = some DValue.null := rfl

/-- C10: popping `n` operands splices array operands in place — the
argument list is the concatenation of each popped operand's elements
(non-arrays contributing themselves), so the operation can receive more
or fewer arguments than `n`. -/
theorem claim_C10 (n : Nat) (s : List DValue) (h : n ≤ s.length) :
    popArgs n s =
      ((s.take n).flatMap (fun v =>
          match v with
          | .arr l => l
          | _ => [v]),
       s.drop n) := by
  induction n generalizing s with
  | zero => simp [popArgs]
  | succ n ih =>
      cases s with
      | nil => simp at h
      | cons v rest =>
          have h' : n ≤ rest.length := by simpa using h
          simp [popArgs, ih rest h']

/-- C10 witness: an addition's array operand `[1, 2]` contributes `1` and
`2` as separate arguments (three arguments from an encoded count of 2). -/
theorem claim_C10_witness :
    2 ≤ ([DValue.arr [.num (.int 1), .num (.int 2)], DValue.num (.int 3)] : List DValue).length ∧
    popArgs 2 [DValue.arr [.num (.int 1), .num (.int 2)], DValue.num (.int 3)] =
      ([DValue.num (.int 1), DValue.num (.int 2), DValue.num (.int 3)], []) := by
  constructor
  · decide
  · rw [claim_C10 2 _ (by decide)]
    rfl

/-- C9: a JSON object with two or more keys in rule position fails with an
"unknown operator" (`OperatorNotFoundError`) naming the first key — never a
plain parse error — both at `parse_object` directly and through
`parse_datavalue_internal`. -/
theorem claim_C9 (fuel : Nat) (k e2k : String) (v e2v : DValue)
    (rest : List (String × DValue)) :
    ParserM.parse_object (fuel + 1) ((k, v) :: (e2k, e2v) :: rest) =
      .error (.operatorNotFound k) ∧
    ParserM.parse_datavalue_internal (fuel + 2)
      (.obj ((k, v) :: (e2k, e2v) :: rest)) = .error (.operatorNotFound k) :=
  ⟨rfl, rfl⟩

/-- C1: on literal and array-literal nodes (always static), running the
compiled program against `Null` and folding with the tree-walking evaluator
agree exactly: both produce the node's value.  (See the counterexample for
static operator nodes, where the two engines disagree.) -/
theorem claim_C1 :
    (∀ v : DValue,
        ASTNode.is_static (.Literal v) = true ∧
        compile 2 (.Literal v) =
          .ok ⟨[⟨.loadConst, 0⟩, ⟨.ret, 0⟩], [v]⟩ ∧
        vmRun ⟨[⟨.loadConst, 0⟩, ⟨.ret, 0⟩], [v]⟩ .null 3 = some v ∧
        foldEval 1 .null (.Literal v) = .ok v) ∧
    (∀ items : List DValue,
        ASTNode.is_static (.ArrayLiteral items) = true ∧
        compile 2 (.ArrayLiteral items) =
          .ok ⟨[⟨.loadConst, 0⟩, ⟨.ret, 0⟩], [.arr items]⟩ ∧
        vmRun ⟨[⟨.loadConst, 0⟩, ⟨.ret, 0⟩], [.arr items]⟩ .null 3 =
          some (.arr items) ∧
        foldEval 1 .null (.ArrayLiteral items) = .ok (.arr items)) := by
  constructor
  · intro v
    refine ⟨rfl, ?_, rfl, rfl⟩
    cases v with
    | num n => cases n <;> rfl
    | null => rfl
    | bool b => rfl
    | str s => rfl
    | arr l => rfl
    | obj l => rfl
    | datetime t => rfl
    | duration d => rfl
  · intro items
    exact ⟨rfl, rfl, rfl, rfl⟩

/-- C1 counterexample: the static node `{"/": [1, 0]}` compiles and runs to
integer 0 on the VM, but the compile-time fold produces `Float(inf)` — the
two engines disagree on a static node, so the equivalence does not hold in
general. -/
theorem claim_C1_counterexample :
    ASTNode.is_static
      (.Operator .Divide (.ArrayLiteral [.num (.int 1), .num (.int 0)])) = true ∧
    compile 4 (.Operator .Divide (.ArrayLiteral [.num (.int 1), .num (.int 0)])) =
      .ok ⟨[⟨.loadConst, 0⟩, ⟨.loadConst, 1⟩, ⟨.variadic, 196610⟩, ⟨.ret, 0⟩],
           [.num (.int 0), .num (.int 1)]⟩ ∧
    vmRun ⟨[⟨.loadConst, 0⟩, ⟨.loadConst, 1⟩, ⟨.variadic, 196610⟩, ⟨.ret, 0⟩],
           [.num (.int 0), .num (.int 1)]⟩ .null 5 = some (.num (.int 0)) ∧
    foldEval 3 .null
      (.Operator .Divide (.ArrayLiteral [.num (.int 1), .num (.int 0)])) =
      .ok (.num (.float .inf)) ∧
    dvEq (.num (.int 0)) (.num (.float .inf)) = false := by
  refine ⟨rfl, rfl, rfl, ?_, rfl⟩
  rfl

/-! ## The compiler's range invariant (constant indices and jump targets) -/

/-- Per-instruction range conditions during lowering: constant indices in
range, jump targets at most one past the current end (patched targets point
at the next instruction to be emitted), and no `Return` yet (only
`ensure_return` emits one, at the very end). -/
def instrOK (ins : Instr) (nInstr nPool : Nat) : Prop :=
  (ins.op = .loadConst → ins.imm < nPool) ∧
  (ins.op = .loadVar → ins.imm < nPool) ∧
  (ins.op = .jump → ins.imm ≤ nInstr) ∧
  (ins.op = .jumpIfFalse → ins.imm ≤ nInstr) ∧
  ins.op ≠ .ret

/-- The lowering invariant: every emitted instruction is in range. -/
def Inv (σ : LowerState) : Prop :=
  ∀ i : Nat, ∀ ins : Instr, σ.instructions[i]? = some ins →
    instrOK ins σ.instructions.length σ.pool.length

/-- State extension: lengths grow and the opcodes of existing instructions
never change (patching only rewrites immediates). -/
def Ext (σ σ' : LowerState) : Prop :=
  σ.instructions.length ≤ σ'.instructions.length ∧
  σ.pool.length ≤ σ'.pool.length ∧
  ∀ i : Nat, ∀ ins : Instr, σ.instructions[i]? = some ins →
    ∃ ins' : Instr, σ'.instructions[i]? = some ins' ∧ ins'.op = ins.op

theorem Ext_rfl (σ : LowerState) : Ext σ σ :=
  ⟨le_refl _, le_refl _, fun _ ins h => ⟨ins, h, rfl⟩⟩

theorem Ext.trans {a b c : LowerState} (h1 : Ext a b) (h2 : Ext b c) :
    Ext a c := by
  obtain ⟨l1, p1, o1⟩ := h1
  obtain ⟨l2, p2, o2⟩ := h2
  refine ⟨le_trans l1 l2, le_trans p1 p2, fun i ins h => ?_⟩
  obtain ⟨ins', h', e'⟩ := o1 i ins h
  obtain ⟨ins'', h'', e''⟩ := o2 i ins' h'
  exact ⟨ins'', h'', e''.trans e'⟩

/-- Changing only the return flag preserves everything in sight. -/
theorem Inv_flag (σ : LowerState) (b : Bool) :
    Inv {σ with return_emitted := b} ↔ Inv σ := Iff.rfl

theorem Ext_flag_left (σ : LowerState) (b : Bool) (σ' : LowerState)
    (h : Ext {σ with return_emitted := b} σ') : Ext σ σ' := by
  obtain ⟨a, b', c⟩ := h
  exact ⟨a, b', c⟩

theorem Ext_flag_right (σ σ' : LowerState) (b : Bool)
    (h : Ext σ σ') : Ext σ {σ' with return_emitted := b} := by
  obtain ⟨a, b', c⟩ := h
  exact ⟨a, b', c⟩

theorem instrOK_mono {ins : Instr} {n p n' p' : Nat}
    (h : instrOK ins n p) (hn : n ≤ n') (hp : p ≤ p') : instrOK ins n' p' := by
  obtain ⟨h1, h2, h3, h4, h5⟩ := h
  exact ⟨fun e => lt_of_lt_of_le (h1 e) hp, fun e => lt_of_lt_of_le (h2 e) hp,
    fun e => le_trans (h3 e) hn, fun e => le_trans (h4 e) hn, h5⟩

/-- `emit` preserves the invariant provided the new instruction is itself in
range with respect to the grown instruction list. -/
theorem emit_Inv {σ : LowerState} {i : Instr} (h : Inv σ)
    (hi : instrOK i (σ.instructions.length + 1) σ.pool.length) :
    Inv (emit σ i) := by
  intro j ins hj
  simp only [emit, List.length_append, List.length_singleton] at hj ⊢
  by_cases hcase : j < σ.instructions.length
  · rw [List.getElem?_append_left hcase] at hj
    exact instrOK_mono (h j ins hj) (Nat.le_succ _) (le_refl _)
  · rw [List.getElem?_append_right (Nat.le_of_not_lt hcase)] at hj
    have hz : j - σ.instructions.length = 0 := by
      by_contra hne
      rcases Nat.exists_eq_succ_of_ne_zero hne with ⟨m, hm⟩
      rw [hm] at hj
      simp at hj
    rw [hz] at hj
    simp at hj
    subst hj
    exact hi

theorem emit_Ext (σ : LowerState) (i : Instr) : Ext σ (emit σ i) := by
  refine ⟨by simp [emit], by simp [emit], fun j ins hj => ?_⟩
  have hlt : j < σ.instructions.length := by
    by_contra hge
    rw [List.getElem?_eq_none (Nat.le_of_not_lt hge)] at hj
    exact Option.noConfusion hj
  exact ⟨ins, by simp only [emit]; rw [List.getElem?_append_left hlt]; exact hj, rfl⟩

theorem emit_flag (σ : LowerState) (i : Instr) :
    (emit σ i).return_emitted = σ.return_emitted := rfl

theorem poolFindIdx_lt (l : List DValue) (k : PoolKey) (i : Nat)
    (h : poolFindIdx l k = some i) : i < l.length := by
  induction l generalizing i with
  | nil => simp [poolFindIdx] at h
  | cons w rest ih =>
      rw [poolFindIdx] at h
      by_cases hw : make_key w == some k
      · rw [if_pos hw] at h
        injection h with h0
        subst h0
        simp
      · rw [if_neg hw] at h
        cases hr : poolFindIdx rest k with
        | none => rw [hr] at h; simp at h
        | some m =>
            rw [hr] at h
            simp at h
            have := ih m hr
            simp [List.length_cons]
            omega

/-- Everything `poolAdd` guarantees on success: the instructions and flag
are untouched, the pool only grows, and the returned index is in range. -/
theorem poolAdd_ok {σ : LowerState} {v : DValue} {σ' : LowerState} {idx : Nat}
    (h : poolAdd σ v = .ok (σ', idx)) :
    σ'.instructions = σ.instructions ∧ σ'.return_emitted = σ.return_emitted ∧
      σ.pool.length ≤ σ'.pool.length ∧ idx < σ'.pool.length := by
  have happ : ∀ (hp : poolAppend σ v = .ok (σ', idx)),
      σ'.instructions = σ.instructions ∧ σ'.return_emitted = σ.return_emitted ∧
        σ.pool.length ≤ σ'.pool.length ∧ idx < σ'.pool.length := by
    intro hp
    unfold poolAppend at hp
    by_cases hb : σ.pool.length ≥ 0xFFFFFF
    · simp [hb] at hp
    · simp [hb] at hp
      obtain ⟨hσ, hidx⟩ := hp
      subst hσ
      subst hidx
      simp
  unfold poolAdd at h
  split at h
  · split at h
    · rename_i k j hf
      simp at h
      obtain ⟨hσ, hidx⟩ := h
      subst hσ
      subst hidx
      exact ⟨rfl, rfl, le_refl _, poolFindIdx_lt _ _ _ hf⟩
    · exact happ h
  · exact happ h

theorem poolAdd_Inv {σ : LowerState} {v : DValue} {σ' : LowerState} {idx : Nat}
    (h : poolAdd σ v = .ok (σ', idx)) (hinv : Inv σ) : Inv σ' := by
  obtain ⟨hi, _, hp, _⟩ := poolAdd_ok h
  intro j ins hj
  rw [hi] at hj
  have := hinv j ins hj
  rw [hi]
  exact instrOK_mono this (le_refl _) hp

theorem poolAdd_Ext {σ : LowerState} {v : DValue} {σ' : LowerState} {idx : Nat}
    (h : poolAdd σ v = .ok (σ', idx)) : Ext σ σ' := by
  obtain ⟨hi, _, hp, _⟩ := poolAdd_ok h
  exact ⟨by rw [hi], hp, fun j ins hj => ⟨ins, by rw [hi]; exact hj, rfl⟩⟩

/-- `update_jump` success facts: lengths and the pool are untouched, the
patched instruction keeps its opcode, and the invariant survives provided
the target is at most the current end and the patched slot holds a jump. -/
theorem update_jump_ok {σ : LowerState} {idx target : Nat} {σ' : LowerState}
    (h : update_jump σ idx target = .ok σ') (hinv : Inv σ)
    (htar : target ≤ σ.instructions.length)
    (hop : ∀ ins, σ.instructions[idx]? = some ins →
      ins.op = .jump ∨ ins.op = .jumpIfFalse) :
    Inv σ' ∧ Ext σ σ' ∧ σ'.return_emitted = σ.return_emitted ∧
      σ'.instructions.length = σ.instructions.length ∧ σ'.pool = σ.pool := by
  unfold update_jump at h
  cases hins : σ.instructions[idx]? with
  | none => rw [hins] at h; exact absurd h (by simp)
  | some ins =>
      rw [hins] at h
      simp at h
      subst h
      have hidx : idx < σ.instructions.length := by
        by_contra hge
        rw [List.getElem?_eq_none (Nat.le_of_not_lt hge)] at hins
        exact Option.noConfusion hins
      have hlen : (σ.instructions.set idx (ins.setOperand target)).length =
          σ.instructions.length := List.length_set σ.instructions idx _
      refine ⟨?_, ⟨by simp [hlen], le_refl _, ?_⟩, rfl, by simp [hlen], rfl⟩
      · intro j ins' hj
        simp only at hj ⊢
        rw [hlen]
        by_cases hje : idx = j
        · subst hje
          rw [List.getElem?_set_eq_of_lt _ hidx] at hj
          injection hj with hj2
          subst hj2
          have hops := hop ins hins
          refine ⟨?_, ?_, ?_, ?_, ?_⟩
          · intro he
            exact absurd he (by rcases hops with h | h <;> simp [Instr.setOperand, h])
          · intro he
            exact absurd he (by rcases hops with h | h <;> simp [Instr.setOperand, h])
          · intro _
            calc (ins.setOperand target).imm ≤ target := by
                  simp [Instr.setOperand]
                  exact Nat.mod_le _ _
              _ ≤ σ.instructions.length := htar
          · intro _
            calc (ins.setOperand target).imm ≤ target := by
                  simp [Instr.setOperand]
                  exact Nat.mod_le _ _
              _ ≤ σ.instructions.length := htar
          · rcases hops with h | h <;> simp [Instr.setOperand, h]
        · rw [List.getElem?_set_ne hje] at hj
          exact hinv j ins' hj
      · intro j ins' hj
        by_cases hje : idx = j
        · subst hje
          refine ⟨ins.setOperand target, ?_, ?_⟩
          · simp only
            rw [List.getElem?_set_eq_of_lt _ hidx]
          · have hii : ins = ins' := by
              rw [hins] at hj
              injection hj
            rw [← hii]
            rfl
        · exact ⟨ins', by simp only; rw [List.getElem?_set_ne hje]; exact hj, rfl⟩

/-- One lowering step seen from outside: the invariant holds in the result,
the state only extends, and the return flag is unchanged. -/
def LStep (σ σ' : LowerState) : Prop :=
  Inv σ' ∧ Ext σ σ' ∧ σ'.return_emitted = σ.return_emitted

theorem LStep_refl {σ : LowerState} (h : Inv σ) : LStep σ σ :=
  ⟨h, Ext_rfl σ, rfl⟩

theorem LStep_trans {a b c : LowerState} (h1 : LStep a b) (h2 : LStep b c) :
    LStep a c :=
  ⟨h2.1, Ext.trans h1.2.1 h2.2.1, h2.2.2.trans h1.2.2⟩

/-- Inversion of a successful `Except` bind. -/
theorem bind_ok_inv {α β : Type} {x : Except Unit α} {f : α → Except Unit β}
    {b : β} (h : x >>= f = .ok b) : ∃ a, x = .ok a ∧ f a = .ok b := by
  cases x with
  | error e => exact Except.noConfusion h
  | ok a => exact ⟨a, rfl, h⟩

theorem instrOK_variadic (x n p : Nat) : instrOK (Instr.new .variadic x) n p := by
  refine ⟨?_, ?_, ?_, ?_, ?_⟩ <;> simp [Instr.new]

theorem instrOK_call (x n p : Nat) : instrOK (Instr.new .call x) n p := by
  refine ⟨?_, ?_, ?_, ?_, ?_⟩ <;> simp [Instr.new]

theorem instrOK_ldv (n p : Nat) : instrOK (Instr.new .loadDynamicVar 0) n p := by
  refine ⟨?_, ?_, ?_, ?_, ?_⟩ <;> simp [Instr.new]

theorem instrOK_jump0 (n p : Nat) : instrOK (Instr.new .jump 0) n p := by
  refine ⟨?_, ?_, ?_, ?_, ?_⟩ <;> simp [Instr.new]

theorem instrOK_jumpIfFalse0 (n p : Nat) :
    instrOK (Instr.new .jumpIfFalse 0) n p := by
  refine ⟨?_, ?_, ?_, ?_, ?_⟩ <;> simp [Instr.new]

theorem instrOK_loadConst (idx n p : Nat) (h : idx < p) :
    instrOK (Instr.new .loadConst idx) n p := by
  refine ⟨?_, ?_, ?_, ?_, ?_⟩ <;> simp [Instr.new]
  exact lt_of_le_of_lt (Nat.mod_le _ _) h

theorem instrOK_loadVar (idx n p : Nat) (h : idx < p) :
    instrOK (Instr.new .loadVar idx) n p := by
  refine ⟨?_, ?_, ?_, ?_, ?_⟩ <;> simp [Instr.new]
  exact lt_of_le_of_lt (Nat.mod_le _ _) h

theorem emit_step {σ : LowerState} {i : Instr} (hinv : Inv σ)
    (hok : instrOK i (σ.instructions.length + 1) σ.pool.length) :
    LStep σ (emit σ i) :=
  ⟨emit_Inv hinv hok, emit_Ext σ i, rfl⟩

theorem poolAdd_step {σ : LowerState} {v : DValue} {σ' : LowerState} {idx : Nat}
    (hinv : Inv σ) (h : poolAdd σ v = .ok (σ', idx)) :
    LStep σ σ' ∧ idx < σ'.pool.length := by
  obtain ⟨_, hf, _, hlt⟩ := poolAdd_ok h
  exact ⟨⟨poolAdd_Inv h hinv, poolAdd_Ext h, hf⟩, hlt⟩

/-- The recorded end-jump indices all hold `Jump` instructions. -/
def EJOk (σ : LowerState) (ejs : List Nat) : Prop :=
  ∀ j ∈ ejs, ∃ ins : Instr, σ.instructions[j]? = some ins ∧ ins.op = .jump

theorem EJOk_nil (σ : LowerState) : EJOk σ [] := by
  intro j hj
  exact absurd hj (List.not_mem_nil j)

theorem EJOk_mono {σ σ' : LowerState} {ejs : List Nat} (h : EJOk σ ejs)
    (he : Ext σ σ') : EJOk σ' ejs := by
  intro j hj
  obtain ⟨ins, hins, hop⟩ := h j hj
  obtain ⟨ins', hins', hop'⟩ := he.2.2 j ins hins
  exact ⟨ins', hins', hop'.trans hop⟩

/-- After emitting a fresh `Jump 0` at the current end, the recorded index
list extended with that index stays jump-only. -/
theorem EJOk_snoc {σ : LowerState} {ejs : List Nat} (h : EJOk σ ejs) :
    EJOk (emit σ (Instr.new .jump 0)) (ejs ++ [σ.instructions.length]) := by
  intro j hj
  rcases List.mem_append.mp hj with hj | hj
  · exact EJOk_mono h (emit_Ext σ _) j hj
  · have hje : j = σ.instructions.length := by simpa using hj
    subst hje
    refine ⟨Instr.new .jump 0, ?_, rfl⟩
    simp only [emit]
    rw [List.getElem?_append_right (le_refl _)]
    simp

theorem patchAll_ok :
    ∀ (ejs : List Nat) (σ σ' : LowerState) (target : Nat), Inv σ → EJOk σ ejs →
      target ≤ σ.instructions.length → patchAll σ ejs target = .ok σ' →
      Inv σ' ∧ Ext σ σ' ∧ σ'.return_emitted = σ.return_emitted ∧
        σ'.instructions.length = σ.instructions.length := by
  intro ejs
  induction ejs with
  | nil =>
      intro σ σ' target hinv _ _ h
      simp [patchAll] at h
      subst h
      exact ⟨hinv, Ext_rfl σ, rfl, rfl⟩
  | cons j rest ih =>
      intro σ σ' target hinv hej htar h
      simp only [patchAll] at h
      obtain ⟨σ1, hu, h⟩ := bind_ok_inv h
      have hop : ∀ ins : Instr, σ.instructions[j]? = some ins →
          ins.op = .jump ∨ ins.op = .jumpIfFalse := by
        intro ins hins
        obtain ⟨ins0, hins0, hop0⟩ := hej j (List.mem_cons_self j rest)
        rw [hins0] at hins
        injection hins with hii
        rw [← hii]
        exact Or.inl hop0
      obtain ⟨hinv1, hext1, hflag1, hlen1, _⟩ := update_jump_ok hu hinv htar hop
      have hej1 : EJOk σ1 rest :=
        EJOk_mono (fun m hm => hej m (List.mem_cons_of_mem j hm)) hext1
      obtain ⟨hinv2, hext2, hflag2, hlen2⟩ :=
        ih σ1 σ' target hinv1 hej1 (by omega) h
      exact ⟨hinv2, Ext.trans hext1 hext2, hflag2.trans hflag1, by omega⟩

theorem compile_literal_step {σ : LowerState} {v : DValue} {σ' : LowerState}
    (hinv : Inv σ) (h : compile_literal σ v = .ok σ') : LStep σ σ' := by
  simp only [compile_literal] at h
  obtain ⟨⟨σ1, idx⟩, hpa, h⟩ := bind_ok_inv h
  obtain ⟨hs1, hidx⟩ := poolAdd_step hinv hpa
  injection h with h
  subst h
  exact LStep_trans hs1 (emit_step hs1.1 (instrOK_loadConst _ _ _ hidx))

theorem compile_variable_step {σ : LowerState} {path : DValue}
    {dflt : Option DValue} {sj : Option Nat} {σ' : LowerState} (hinv : Inv σ)
    (h : compile_variable σ path dflt sj = .ok σ') : LStep σ σ' := by
  simp only [compile_variable] at h
  obtain ⟨⟨σ1, pidx⟩, h1, h⟩ := bind_ok_inv h
  obtain ⟨hs1, hp1⟩ := poolAdd_step hinv h1
  obtain ⟨⟨σ2, i2⟩, h2, h⟩ := bind_ok_inv h
  obtain ⟨hs2, _⟩ := poolAdd_step hs1.1 h2
  obtain ⟨⟨σ3, i3⟩, h3, h⟩ := bind_ok_inv h
  obtain ⟨hs3, _⟩ := poolAdd_step hs2.1 h3
  injection h with h
  subst h
  have hp3 : pidx < σ3.pool.length :=
    lt_of_lt_of_le hp1 (le_trans hs2.2.1.2.1 hs3.2.1.2.1)
  exact LStep_trans hs1 (LStep_trans hs2 (LStep_trans hs3
    (emit_step hs3.1 (instrOK_loadVar _ _ _ hp3))))

theorem compile_var_args_step {σ : LowerState} {args : ASTNode}
    {σ' : LowerState} (hinv : Inv σ)
    (h : compile_var_args σ args = .ok σ') : LStep σ σ' := by
  unfold compile_var_args at h
  split at h
  · split at h
    · obtain ⟨⟨σ1, pidx⟩, h1, h⟩ := bind_ok_inv h
      obtain ⟨hs1, hp1⟩ := poolAdd_step hinv h1
      injection h with h
      subst h
      exact LStep_trans hs1 (emit_step hs1.1 (instrOK_loadVar _ _ _ hp1))
    · exact Except.noConfusion h
  · obtain ⟨⟨σ1, pidx⟩, h1, h⟩ := bind_ok_inv h
    obtain ⟨hs1, hp1⟩ := poolAdd_step hinv h1
    injection h with h
    subst h
    exact LStep_trans hs1 (emit_step hs1.1 (instrOK_loadVar _ _ _ hp1))
  · exact Except.noConfusion h

theorem loadConstRevList_step :
    ∀ (items : List DValue) (σ σ' : LowerState), Inv σ →
      loadConstRevList σ items = .ok σ' → LStep σ σ' := by
  intro items
  induction items with
  | nil =>
      intro σ σ' hinv h
      simp only [loadConstRevList] at h
      injection h with h
      subst h
      exact LStep_refl hinv
  | cons x rest ih =>
      intro σ σ' hinv h
      simp only [loadConstRevList] at h
      obtain ⟨σ1, h1, h⟩ := bind_ok_inv h
      have hs1 := ih σ σ1 hinv h1
      obtain ⟨⟨σ2, idx⟩, h2, h⟩ := bind_ok_inv h
      obtain ⟨hs2, hidx⟩ := poolAdd_step hs1.1 h2
      injection h with h
      subst h
      exact LStep_trans hs1 (LStep_trans hs2
        (emit_step hs2.1 (instrOK_loadConst _ _ _ hidx)))

/-- The freshly emitted `JumpIfFalse` at the recorded index keeps a jump
opcode through any further extension. -/
theorem jn_op_after {σ2 σ4 : LowerState} (hext : Ext σ2 σ4) {jn : Nat}
    {i0 : Instr} (hin : σ2.instructions[jn]? = some i0)
    (hop0 : i0.op = .jump ∨ i0.op = .jumpIfFalse) :
    ∀ ins : Instr, σ4.instructions[jn]? = some ins →
      ins.op = .jump ∨ ins.op = .jumpIfFalse := by
  intro ins hins
  obtain ⟨ins', hins', hop'⟩ := hext.2.2 jn i0 hin
  rw [hins'] at hins
  injection hins with hii
  rw [← hii, hop']
  exact hop0

/-- The instruction just emitted sits at the old end of the list. -/
theorem emit_getElem_last (σ : LowerState) (i : Instr) :
    (emit σ i).instructions[σ.instructions.length]? = some i := by
  simp only [emit]
  rw [List.getElem?_append_right (le_refl _)]
  simp

theorem ifChainLit_step :
    ∀ (n : Nat) (items : List DValue) (σ : LowerState) (ejs : List Nat)
      (σ' : LowerState) (ejs' : List Nat), items.length ≤ n → Inv σ →
      EJOk σ ejs → ifChainLit σ items ejs = .ok (σ', ejs') →
      LStep σ σ' ∧ EJOk σ' ejs' := by
  intro n
  induction n with
  | zero =>
      intro items σ ejs σ' ejs' hlen hinv hej h
      match items with
      | [] =>
          simp only [ifChainLit] at h
          injection h with h
          rw [Prod.mk.injEq] at h
          obtain ⟨h1, h2⟩ := h
          subst h1
          subst h2
          exact ⟨LStep_refl hinv, hej⟩
      | x :: xs => simp at hlen
  | succ n ih =>
      intro items σ ejs σ' ejs' hlen hinv hej h
      match items with
      | [] =>
          simp only [ifChainLit] at h
          injection h with h
          rw [Prod.mk.injEq] at h
          obtain ⟨h1, h2⟩ := h
          subst h1
          subst h2
          exact ⟨LStep_refl hinv, hej⟩
      | [d] =>
          simp only [ifChainLit] at h
          obtain ⟨⟨σ1, idx⟩, h1, h⟩ := bind_ok_inv h
          obtain ⟨hs1, hidx⟩ := poolAdd_step hinv h1
          injection h with h
          rw [Prod.mk.injEq] at h
          obtain ⟨h2, h3⟩ := h
          subst h2
          subst h3
          have hs2 := emit_step hs1.1 (instrOK_loadConst idx _ _ hidx)
          exact ⟨LStep_trans hs1 hs2,
            EJOk_mono hej (Ext.trans hs1.2.1 hs2.2.1)⟩
      | cond :: val :: rest =>
          simp only [ifChainLit, emitWithIndex] at h
          obtain ⟨⟨σ1, ci⟩, h1, h⟩ := bind_ok_inv h
          obtain ⟨hs1, hci⟩ := poolAdd_step hinv h1
          have hs1e := emit_step hs1.1 (instrOK_loadConst ci _ _ hci)
          have hs2 := emit_step (σ := emit σ1 (Instr.new .loadConst ci))
            (i := Instr.new .jumpIfFalse 0) hs1e.1 (instrOK_jumpIfFalse0 _ _)
          obtain ⟨⟨σ3, vi⟩, h3, h⟩ := bind_ok_inv h
          obtain ⟨hs3, hvi⟩ := poolAdd_step hs2.1 h3
          have hs3e := emit_step hs3.1 (instrOK_loadConst vi _ _ hvi)
          have hjn :
              (emit (emit σ1 (Instr.new .loadConst ci))
                (Instr.new .jumpIfFalse 0)).instructions[
                  (emit σ1 (Instr.new .loadConst ci)).instructions.length]? =
                some (Instr.new .jumpIfFalse 0) :=
            emit_getElem_last (emit σ1 (Instr.new .loadConst ci)) _
          have hlen' : rest.length ≤ n := by
            simp only [List.length_cons] at hlen
            omega
          -- the accumulated step from σ up to the value-load
          have hsA := LStep_trans hs1 (LStep_trans hs1e
            (LStep_trans hs2 (LStep_trans hs3 hs3e)))
          -- Ext from the jump-emit state to the value-load state
          have hextB := Ext.trans hs3.2.1 hs3e.2.1
          by_cases hr : rest.isEmpty
          · rw [if_pos hr] at h
            obtain ⟨σ5, hu, h⟩ := bind_ok_inv h
            obtain ⟨hinv5, hext5, hflag5, _, _⟩ :=
              update_jump_ok hu hsA.1 (le_refl _)
                (jn_op_after hextB hjn (Or.inr rfl))
            have hs5 : LStep σ σ5 := LStep_trans hsA ⟨hinv5, hext5, hflag5⟩
            obtain ⟨hs6, hej6⟩ := ih rest σ5 ejs σ' ejs' hlen' hs5.1
              (EJOk_mono hej (Ext.trans hsA.2.1 hext5)) h
            exact ⟨LStep_trans hs5 hs6, hej6⟩
          · rw [if_neg hr] at h
            -- the end-jump is emitted before patching
            have hs4 := emit_step (i := Instr.new .jump 0) hsA.1
              (instrOK_jump0 _ _)
            obtain ⟨σ5, hu, h⟩ := bind_ok_inv h
            obtain ⟨hinv5, hext5, hflag5, _, _⟩ :=
              update_jump_ok hu hs4.1 (le_refl _)
                (jn_op_after (Ext.trans hextB hs4.2.1) hjn (Or.inr rfl))
            have hs5 : LStep σ σ5 :=
              LStep_trans hsA (LStep_trans hs4 ⟨hinv5, hext5, hflag5⟩)
            have hejB : EJOk (emit (emit σ3 (Instr.new .loadConst vi))
                (Instr.new .jump 0))
                (ejs ++ [(emit σ3 (Instr.new .loadConst vi)).instructions.length]) :=
              EJOk_snoc (EJOk_mono hej hsA.2.1)
            obtain ⟨hs6, hej6⟩ := ih rest σ5 _ σ' ejs' hlen' hs5.1
              (EJOk_mono hejB hext5) h
            exact ⟨LStep_trans hs5 hs6, hej6⟩

theorem emitVariadic_step {σ : LowerState} (hinv : Inv σ) (x : Nat) :
    LStep σ (emit σ (Instr.new .variadic x)) :=
  emit_step hinv (instrOK_variadic _ _ _)

theorem emitCall_step {σ : LowerState} (hinv : Inv σ) (x : Nat) :
    LStep σ (emit σ (Instr.new .call x)) :=
  emit_step hinv (instrOK_call _ _ _)

/-- `poolAdd` followed by loading the returned index. -/
theorem poolLoad_step {σ σ1 : LowerState} {v : DValue} {idx : Nat}
    (hinv : Inv σ) (h : poolAdd σ v = .ok (σ1, idx)) :
    LStep σ (emit σ1 (Instr.new .loadConst idx)) := by
  obtain ⟨hs1, hidx⟩ := poolAdd_step hinv h
  exact LStep_trans hs1 (emit_step hs1.1 (instrOK_loadConst _ _ _ hidx))

set_option maxHeartbeats 2000000

/-- The lowering invariant is preserved by every compile function: on
success the state only extends, constant indices stay in range, patched jump
targets stay at most one past the end, no `Return` is emitted, and the
return flag is restored.  Proved by one induction on the fuel for the whole
mutual family. -/
theorem lower_inv (fuel : Nat) :
    (∀ σ node σ', Inv σ → compile_body fuel σ node = .ok σ' → LStep σ σ') ∧
    (∀ σ node σ', Inv σ → compile_without_return fuel σ node = .ok σ' →
      LStep σ σ') ∧
    (∀ σ items σ', Inv σ → compileFwdList fuel σ items = .ok σ' → LStep σ σ') ∧
    (∀ σ items σ', Inv σ → compileRevList fuel σ items = .ok σ' → LStep σ σ') ∧
    (∀ σ pe d sj σ', Inv σ → compile_dynamic_variable fuel σ pe d sj = .ok σ' →
      LStep σ σ') ∧
    (∀ σ op args σ', Inv σ → compile_operator fuel σ op args = .ok σ' →
      LStep σ σ') ∧
    (∀ σ op args σ', Inv σ → compile_arithmetic_args fuel σ op args = .ok σ' →
      LStep σ σ') ∧
    (∀ σ op args σ', Inv σ → compile_comparison_args fuel σ op args = .ok σ' →
      LStep σ σ') ∧
    (∀ σ op args σ', Inv σ → compile_logical_args fuel σ op args = .ok σ' →
      LStep σ σ') ∧
    (∀ σ items σ', Inv σ → logicalRevList fuel σ items = .ok σ' → LStep σ σ') ∧
    (∀ σ args σ', Inv σ → compile_if_args fuel σ args = .ok σ' → LStep σ σ') ∧
    (∀ σ items ejs σ' ejs', Inv σ → EJOk σ ejs →
      ifChain fuel σ items ejs = .ok (σ', ejs') → LStep σ σ' ∧ EJOk σ' ejs') ∧
    (∀ σ args σ', Inv σ → compile_merge_args fuel σ args = .ok σ' →
      LStep σ σ') ∧
    (∀ σ args σ', Inv σ → compile_cat_args fuel σ args = .ok σ' → LStep σ σ') ∧
    (∀ σ args σ', Inv σ → compile_substr_args fuel σ args = .ok σ' →
      LStep σ σ') ∧
    (∀ σ args σ', Inv σ → compile_missing_args fuel σ args = .ok σ' →
      LStep σ σ') ∧
    (∀ σ args σ', Inv σ → compile_missing_some_args fuel σ args = .ok σ' →
      LStep σ σ') := by
  induction fuel with
  | zero =>
      refine ⟨?_, ?_, ?_, ?_, ?_, ?_, ?_, ?_, ?_, ?_, ?_, ?_, ?_, ?_, ?_, ?_, ?_⟩ <;>
        (intros; rename_i h) <;>
        first
          | exact Except.noConfusion h
          | simp [compileFwdList] at h
          | simp [compileRevList] at h
          | simp [logicalRevList] at h
          | simp [ifChain] at h
  | succ fuel ih =>
      obtain ⟨ihB, ihW, ihF, ihR, ihD, ihO, ihA, ihC, ihL, ihLR, ihIf, ihCh,
        ihM, ihCa, ihS, ihMi, ihMs⟩ := ih
      refine ⟨?_, ?_, ?_, ?_, ?_, ?_, ?_, ?_, ?_, ?_, ?_, ?_, ?_, ?_, ?_, ?_, ?_⟩
      -- compile_body
      · intro σ node σ' hinv h
        cases node with
        | Literal v =>
            simp only [compile_body] at h
            exact compile_literal_step hinv h
        | Variable path dflt sj =>
            simp only [compile_body] at h
            exact compile_variable_step hinv h
        | DynamicVariable pe d sj =>
            simp only [compile_body] at h
            exact ihD _ _ _ _ _ hinv h
        | Operator op args =>
            simp only [compile_body] at h
            exact ihO _ _ _ _ hinv h
        | Array items =>
            simp only [compile_body] at h
            obtain ⟨σ1, h1, h⟩ := bind_ok_inv h
            have hs1 := ihF _ _ _ hinv h1
            injection h with h
            subst h
            exact LStep_trans hs1 (emitCall_step hs1.1 0)
        | ArrayLiteral items =>
            simp only [compile_body] at h
            obtain ⟨⟨σ1, idx⟩, h1, h⟩ := bind_ok_inv h
            injection h with h
            subst h
            exact poolLoad_step hinv h1
        | CustomOperator name args =>
            simp only [compile_body] at h
            exact Except.noConfusion h
      -- compile_without_return
      · intro σ node σ' hinv h
        simp only [compile_without_return] at h
        obtain ⟨σ1, h1, h⟩ := bind_ok_inv h
        injection h with h
        subst h
        have hinv' : Inv {σ with return_emitted := true} := hinv
        have hs1 := ihB _ _ _ hinv' h1
        exact ⟨hs1.1, Ext_flag_right _ _ _ (Ext_flag_left _ _ _ hs1.2.1), rfl⟩
      -- compileFwdList
      · intro σ items σ' hinv h
        cases items with
        | nil =>
            simp only [compileFwdList] at h
            injection h with h
            subst h
            exact LStep_refl hinv
        | cons x rest =>
            simp only [compileFwdList] at h
            obtain ⟨σ1, h1, h⟩ := bind_ok_inv h
            have hs1 := ihW _ _ _ hinv h1
            exact LStep_trans hs1 (ihF _ _ _ hs1.1 h)
      -- compileRevList
      · intro σ items σ' hinv h
        cases items with
        | nil =>
            simp only [compileRevList] at h
            injection h with h
            subst h
            exact LStep_refl hinv
        | cons x rest =>
            simp only [compileRevList] at h
            obtain ⟨σ1, h1, h⟩ := bind_ok_inv h
            have hs1 := ihR _ _ _ hinv h1
            exact LStep_trans hs1 (ihW _ _ _ hs1.1 h)
      -- compile_dynamic_variable
      · intro σ pe d sj σ' hinv h
        simp only [compile_dynamic_variable] at h
        obtain ⟨σ1, h1, h⟩ := bind_ok_inv h
        have hs1 := ihW _ _ _ hinv h1
        obtain ⟨σ2, h2, h⟩ := bind_ok_inv h
        have hs2 : LStep σ1 σ2 := by
          cases d with
          | some de => exact ihW _ _ _ hs1.1 h2
          | none =>
              obtain ⟨⟨σ', nidx⟩, hp, h2'⟩ := bind_ok_inv h2
              injection h2' with h2'
              subst h2'
              exact poolLoad_step hs1.1 hp
        obtain ⟨⟨σ3, sjidx⟩, h3, h⟩ := bind_ok_inv h
        injection h with h
        subst h
        have hs3 := poolLoad_step hs2.1 h3
        exact LStep_trans hs1 (LStep_trans hs2 (LStep_trans hs3
          (emit_step hs3.1 (instrOK_ldv _ _))))
      -- compile_operator
      · intro σ op args σ' hinv h
        cases op <;> simp only [compile_operator] at h <;>
          first
            | exact ihA _ _ _ _ hinv h
            | exact ihC _ _ _ _ hinv h
            | exact ihL _ _ _ _ hinv h
            | exact ihIf _ _ _ hinv h
            | exact compile_var_args_step hinv h
            | exact ihM _ _ _ hinv h
            | exact ihCa _ _ _ hinv h
            | exact ihS _ _ _ hinv h
            | exact ihMi _ _ _ hinv h
            | exact ihMs _ _ _ hinv h
            | exact Except.noConfusion h
      -- compile_arithmetic_args
      · intro σ op args σ' hinv h
        cases args with
        | Array items =>
            simp only [compile_arithmetic_args] at h
            obtain ⟨σ1, h1, h⟩ := bind_ok_inv h
            have hs1 := ihR _ _ _ hinv h1
            obtain ⟨t, ht, h⟩ := bind_ok_inv h
            injection h with h
            subst h
            exact LStep_trans hs1 (emitVariadic_step hs1.1 _)
        | ArrayLiteral items =>
            simp only [compile_arithmetic_args] at h
            obtain ⟨σ1, h1, h⟩ := bind_ok_inv h
            have hs1 := loadConstRevList_step items σ σ1 hinv h1
            obtain ⟨t, ht, h⟩ := bind_ok_inv h
            injection h with h
            subst h
            exact LStep_trans hs1 (emitVariadic_step hs1.1 _)
        | Literal v =>
            simp only [compile_arithmetic_args] at h
            obtain ⟨⟨σ1, idx⟩, h1, h⟩ := bind_ok_inv h
            injection h with h
            subst h
            exact LStep_trans (poolLoad_step hinv h1)
              (emitVariadic_step (poolLoad_step hinv h1).1 _)
        | Variable a b c =>
            simp only [compile_arithmetic_args] at h
            exact Except.noConfusion h
        | DynamicVariable a b c =>
            simp only [compile_arithmetic_args] at h
            exact Except.noConfusion h
        | Operator a b =>
            simp only [compile_arithmetic_args] at h
            exact Except.noConfusion h
        | CustomOperator a b =>
            simp only [compile_arithmetic_args] at h
            exact Except.noConfusion h
      -- compile_comparison_args
      · intro σ op args σ' hinv h
        simp only [compile_comparison_args] at h
        obtain ⟨t, ht, h⟩ := bind_ok_inv h
        cases args with
        | Array items =>
            obtain ⟨σ1, h1, h⟩ := bind_ok_inv h
            have hs1 := ihR _ _ _ hinv h1
            injection h with h
            subst h
            exact LStep_trans hs1 (emitVariadic_step hs1.1 _)
        | ArrayLiteral items =>
            obtain ⟨⟨σ1, idx⟩, h1, h⟩ := bind_ok_inv h
            injection h with h
            subst h
            exact LStep_trans (poolLoad_step hinv h1)
              (emitVariadic_step (poolLoad_step hinv h1).1 _)
        | Literal v => exact Except.noConfusion h
        | Variable a b c => exact Except.noConfusion h
        | DynamicVariable a b c => exact Except.noConfusion h
        | Operator a b => exact Except.noConfusion h
        | CustomOperator a b => exact Except.noConfusion h
      -- compile_logical_args
      · intro σ op args σ' hinv h
        cases args with
        | Literal v =>
            simp only [compile_logical_args] at h
            obtain ⟨⟨σ1, idx⟩, h1, h⟩ := bind_ok_inv h
            obtain ⟨t, ht, h⟩ := bind_ok_inv h
            injection h with h
            subst h
            exact LStep_trans (poolLoad_step hinv h1)
              (emitVariadic_step (poolLoad_step hinv h1).1 _)
        | Array items =>
            simp only [compile_logical_args] at h
            obtain ⟨σ1, h1, h⟩ := bind_ok_inv h
            have hs1 := ihLR _ _ _ hinv h1
            split at h <;>
              first
                | exact Except.noConfusion h
                | (injection h with h; subst h;
                   exact LStep_trans hs1 (emitVariadic_step hs1.1 _))
                | (split at h
                   · exact Except.noConfusion h
                   · injection h with h
                     subst h
                     exact LStep_trans hs1 (emitVariadic_step hs1.1 _))
        | ArrayLiteral items =>
            simp only [compile_logical_args] at h
            obtain ⟨⟨σ1, idx⟩, h1, h⟩ := bind_ok_inv h
            obtain ⟨t, ht, h⟩ := bind_ok_inv h
            injection h with h
            subst h
            exact LStep_trans (poolLoad_step hinv h1)
              (emitVariadic_step (poolLoad_step hinv h1).1 _)
        | Variable a b c =>
            simp only [compile_logical_args] at h
            exact Except.noConfusion h
        | DynamicVariable a b c =>
            simp only [compile_logical_args] at h
            exact Except.noConfusion h
        | Operator a b =>
            simp only [compile_logical_args] at h
            exact Except.noConfusion h
        | CustomOperator a b =>
            simp only [compile_logical_args] at h
            exact Except.noConfusion h
      -- logicalRevList
      · intro σ items σ' hinv h
        cases items with
        | nil =>
            simp only [logicalRevList] at h
            injection h with h
            subst h
            exact LStep_refl hinv
        | cons x rest =>
            simp only [logicalRevList] at h
            obtain ⟨σ1, h1, h⟩ := bind_ok_inv h
            have hs1 := ihLR _ _ _ hinv h1
            refine LStep_trans hs1 ?_
            split at h
            · obtain ⟨⟨σ2, idx⟩, h2, h⟩ := bind_ok_inv h
              injection h with h
              subst h
              exact poolLoad_step hs1.1 h2
            · split at h
              · obtain ⟨⟨σ2, idx⟩, h2, h⟩ := bind_ok_inv h
                injection h with h
                subst h
                exact poolLoad_step hs1.1 h2
              · obtain ⟨σ2, h2, h⟩ := bind_ok_inv h
                have hs2 := ihR _ _ _ hs1.1 h2
                injection h with h
                subst h
                exact LStep_trans hs2 (emitCall_step hs2.1 0)
            · exact ihW _ _ _ hs1.1 h
      -- compile_if_args
      · intro σ args σ' hinv h
        cases args with
        | Array items =>
            rcases items with _ | ⟨a, _ | ⟨b, t⟩⟩
            · simp only [compile_if_args] at h
              obtain ⟨⟨σ1, idx⟩, h1, h⟩ := bind_ok_inv h
              injection h with h
              subst h
              exact poolLoad_step hinv h1
            · simp only [compile_if_args] at h
              exact ihW _ _ _ hinv h
            · simp only [compile_if_args] at h
              obtain ⟨⟨σ1, ejs⟩, h1, h⟩ := bind_ok_inv h
              obtain ⟨hs1, hej1⟩ := ihCh _ _ _ _ _ hinv (EJOk_nil σ) h1
              obtain ⟨hinv2, hext2, hflag2, _⟩ :=
                patchAll_ok ejs σ1 σ' σ1.instructions.length hs1.1 hej1
                  (le_refl _) h
              exact LStep_trans hs1 ⟨hinv2, hext2, hflag2⟩
        | ArrayLiteral items =>
            rcases items with _ | ⟨a, _ | ⟨b, t⟩⟩
            · simp only [compile_if_args] at h
              obtain ⟨⟨σ1, idx⟩, h1, h⟩ := bind_ok_inv h
              injection h with h
              subst h
              exact poolLoad_step hinv h1
            · simp only [compile_if_args] at h
              obtain ⟨⟨σ1, idx⟩, h1, h⟩ := bind_ok_inv h
              injection h with h
              subst h
              exact poolLoad_step hinv h1
            · simp only [compile_if_args] at h
              obtain ⟨⟨σ1, ejs⟩, h1, h⟩ := bind_ok_inv h
              obtain ⟨hs1, hej1⟩ := ifChainLit_step (a :: b :: t).length
                (a :: b :: t) σ [] σ1 ejs (le_refl _) hinv (EJOk_nil σ) h1
              obtain ⟨hinv2, hext2, hflag2, _⟩ :=
                patchAll_ok ejs σ1 σ' σ1.instructions.length hs1.1 hej1
                  (le_refl _) h
              exact LStep_trans hs1 ⟨hinv2, hext2, hflag2⟩
        | Literal v =>
            simp only [compile_if_args] at h
            exact Except.noConfusion h
        | Variable a b c =>
            simp only [compile_if_args] at h
            exact Except.noConfusion h
        | DynamicVariable a b c =>
            simp only [compile_if_args] at h
            exact Except.noConfusion h
        | Operator a b =>
            simp only [compile_if_args] at h
            exact Except.noConfusion h
        | CustomOperator a b =>
            simp only [compile_if_args] at h
            exact Except.noConfusion h
      -- ifChain
      · intro σ items ejs σ' ejs' hinv hej h
        rcases items with _ | ⟨cond, _ | ⟨val, rest⟩⟩
        · simp only [ifChain] at h
          injection h with h
          rw [Prod.mk.injEq] at h
          obtain ⟨h1, h2⟩ := h
          subst h1
          subst h2
          exact ⟨LStep_refl hinv, hej⟩
        · simp only [ifChain] at h
          obtain ⟨σ1, h1, h⟩ := bind_ok_inv h
          have hs1 := ihW _ _ _ hinv h1
          injection h with h
          rw [Prod.mk.injEq] at h
          obtain ⟨h2, h3⟩ := h
          subst h2
          subst h3
          exact ⟨hs1, EJOk_mono hej hs1.2.1⟩
        · simp only [ifChain, emitWithIndex] at h
          obtain ⟨σ1, h1, h⟩ := bind_ok_inv h
          have hs1 := ihW _ _ _ hinv h1
          have hs2 := emit_step (σ := σ1) (i := Instr.new .jumpIfFalse 0)
            hs1.1 (instrOK_jumpIfFalse0 _ _)
          obtain ⟨σ3, h3, h⟩ := bind_ok_inv h
          have hs3 := ihW _ _ _ hs2.1 h3
          have hjn : (emit σ1 (Instr.new .jumpIfFalse 0)).instructions[
              σ1.instructions.length]? = some (Instr.new .jumpIfFalse 0) :=
            emit_getElem_last σ1 _
          have hsA := LStep_trans hs1 (LStep_trans hs2 hs3)
          by_cases hr : rest.isEmpty
          · rw [if_pos hr] at h
            obtain ⟨σ5, hu, h⟩ := bind_ok_inv h
            obtain ⟨hinv5, hext5, hflag5, _, _⟩ :=
              update_jump_ok hu hsA.1 (le_refl _)
                (jn_op_after hs3.2.1 hjn (Or.inr rfl))
            have hs5 : LStep σ σ5 := LStep_trans hsA ⟨hinv5, hext5, hflag5⟩
            obtain ⟨hs6, hej6⟩ := ihCh _ _ _ _ _ hs5.1
              (EJOk_mono hej (Ext.trans hsA.2.1 hext5)) h
            exact ⟨LStep_trans hs5 hs6, hej6⟩
          · rw [if_neg hr] at h
            have hs4 := emit_step (σ := σ3) (i := Instr.new .jump 0) hsA.1
              (instrOK_jump0 _ _)
            obtain ⟨σ5, hu, h⟩ := bind_ok_inv h
            obtain ⟨hinv5, hext5, hflag5, _, _⟩ :=
              update_jump_ok hu hs4.1 (le_refl _)
                (jn_op_after (Ext.trans hs3.2.1 hs4.2.1) hjn (Or.inr rfl))
            have hs5 : LStep σ σ5 :=
              LStep_trans hsA (LStep_trans hs4 ⟨hinv5, hext5, hflag5⟩)
            have hejB : EJOk (emit σ3 (Instr.new .jump 0))
                (ejs ++ [σ3.instructions.length]) :=
              EJOk_snoc (EJOk_mono hej hsA.2.1)
            obtain ⟨hs6, hej6⟩ := ihCh _ _ _ _ _ hs5.1
              (EJOk_mono hejB hext5) h
            exact ⟨LStep_trans hs5 hs6, hej6⟩
      -- compile_merge_args
      · intro σ args σ' hinv h
        cases args with
        | Array items =>
            simp only [compile_merge_args] at h
            obtain ⟨σ1, h1, h⟩ := bind_ok_inv h
            have hs1 := ihR _ _ _ hinv h1
            injection h with h
            subst h
            exact LStep_trans hs1 (emitCall_step hs1.1 _)
        | ArrayLiteral items =>
            simp only [compile_merge_args] at h
            obtain ⟨σ1, h1, h⟩ := bind_ok_inv h
            have hs1 := loadConstRevList_step items σ σ1 hinv h1
            injection h with h
            subst h
            exact LStep_trans hs1 (emitCall_step hs1.1 _)
        | Literal v =>
            simp only [compile_merge_args] at h
            obtain ⟨⟨σ1, idx⟩, h1, h⟩ := bind_ok_inv h
            injection h with h
            subst h
            exact LStep_trans (poolLoad_step hinv h1)
              (emitCall_step (poolLoad_step hinv h1).1 _)
        | Variable a b c =>
            simp only [compile_merge_args] at h
            exact Except.noConfusion h
        | DynamicVariable a b c =>
            simp only [compile_merge_args] at h
            exact Except.noConfusion h
        | Operator a b =>
            simp only [compile_merge_args] at h
            exact Except.noConfusion h
        | CustomOperator a b =>
            simp only [compile_merge_args] at h
            exact Except.noConfusion h
      -- compile_cat_args
      · intro σ args σ' hinv h
        cases args with
        | Array items =>
            simp only [compile_cat_args] at h
            obtain ⟨σ1, h1, h⟩ := bind_ok_inv h
            have hs1 := ihR _ _ _ hinv h1
            injection h with h
            subst h
            exact LStep_trans hs1 (emitCall_step hs1.1 _)
        | ArrayLiteral items =>
            simp only [compile_cat_args] at h
            obtain ⟨σ1, h1, h⟩ := bind_ok_inv h
            have hs1 := loadConstRevList_step items σ σ1 hinv h1
            injection h with h
            subst h
            exact LStep_trans hs1 (emitCall_step hs1.1 _)
        | Literal v =>
            simp only [compile_cat_args] at h
            obtain ⟨⟨σ1, idx⟩, h1, h⟩ := bind_ok_inv h
            injection h with h
            subst h
            exact LStep_trans (poolLoad_step hinv h1)
              (emitCall_step (poolLoad_step hinv h1).1 _)
        | Variable a b c =>
            simp only [compile_cat_args] at h
            exact Except.noConfusion h
        | DynamicVariable a b c =>
            simp only [compile_cat_args] at h
            exact Except.noConfusion h
        | Operator a b =>
            simp only [compile_cat_args] at h
            exact Except.noConfusion h
        | CustomOperator a b =>
            simp only [compile_cat_args] at h
            exact Except.noConfusion h
      -- compile_substr_args
      · intro σ args σ' hinv h
        unfold compile_substr_args at h
        split at h
        · obtain ⟨σ1, h1, h⟩ := bind_ok_inv h
          have hs1 : LStep σ σ1 := by
            split at h1
            · exact ihW _ _ _ hinv h1
            · injection h1 with h1
              subst h1
              exact LStep_refl hinv
          obtain ⟨σ2, h2, h⟩ := bind_ok_inv h
          have hs2 := ihW _ _ _ hs1.1 h2
          obtain ⟨σ3, h3, h⟩ := bind_ok_inv h
          have hs3 := ihW _ _ _ hs2.1 h3
          injection h with h
          subst h
          exact LStep_trans hs1 (LStep_trans hs2 (LStep_trans hs3
            (emitCall_step hs3.1 _)))
        · obtain ⟨σ1, h1, h⟩ := bind_ok_inv h
          have hs1 : LStep σ σ1 := by
            split at h1
            · obtain ⟨⟨σ0, idx⟩, hp, h1'⟩ := bind_ok_inv h1
              injection h1' with h1'
              subst h1'
              exact poolLoad_step hinv hp
            · injection h1 with h1
              subst h1
              exact LStep_refl hinv
          obtain ⟨⟨σ2, i1⟩, h2, h⟩ := bind_ok_inv h
          have hs2 := poolLoad_step hs1.1 h2
          obtain ⟨⟨σ3, i0⟩, h3, h⟩ := bind_ok_inv h
          have hs3 := poolLoad_step hs2.1 h3
          injection h with h
          subst h
          exact LStep_trans hs1 (LStep_trans hs2 (LStep_trans hs3
            (emitCall_step hs3.1 _)))
        · exact Except.noConfusion h
      -- compile_missing_args
      · intro σ args σ' hinv h
        cases args with
        | Array items =>
            simp only [compile_missing_args] at h
            obtain ⟨σ1, h1, h⟩ := bind_ok_inv h
            have hs1 := ihR _ _ _ hinv h1
            injection h with h
            subst h
            exact LStep_trans hs1 (emitCall_step hs1.1 _)
        | ArrayLiteral items =>
            simp only [compile_missing_args] at h
            obtain ⟨σ1, h1, h⟩ := bind_ok_inv h
            have hs1 := loadConstRevList_step items σ σ1 hinv h1
            injection h with h
            subst h
            exact LStep_trans hs1 (emitCall_step hs1.1 _)
        | Literal v =>
            simp only [compile_missing_args] at h
            obtain ⟨⟨σ1, idx⟩, h1, h⟩ := bind_ok_inv h
            injection h with h
            subst h
            exact LStep_trans (poolLoad_step hinv h1)
              (emitCall_step (poolLoad_step hinv h1).1 _)
        | Operator a b =>
            simp only [compile_missing_args] at h
            obtain ⟨σ1, h1, h⟩ := bind_ok_inv h
            have hs1 := ihW _ _ _ hinv h1
            injection h with h
            subst h
            exact LStep_trans hs1 (emitCall_step hs1.1 _)
        | Variable a b c =>
            simp only [compile_missing_args] at h
            exact Except.noConfusion h
        | DynamicVariable a b c =>
            simp only [compile_missing_args] at h
            exact Except.noConfusion h
        | CustomOperator a b =>
            simp only [compile_missing_args] at h
            exact Except.noConfusion h
      -- compile_missing_some_args
      · intro σ args σ' hinv h
        unfold compile_missing_some_args at h
        split at h
        · obtain ⟨σ1, h1, h⟩ := bind_ok_inv h
          have hs1 := ihW _ _ _ hinv h1
          obtain ⟨σ2, h2, h⟩ := bind_ok_inv h
          have hs2 := ihW _ _ _ hs1.1 h2
          injection h with h
          subst h
          exact LStep_trans hs1 (LStep_trans hs2 (emitCall_step hs2.1 _))
        · split at h
          · exact Except.noConfusion h
          · obtain ⟨σ1, h1, h⟩ := bind_ok_inv h
            have hs1 := loadConstRevList_step _ σ σ1 hinv h1
            injection h with h
            subst h
            exact LStep_trans hs1 (emitCall_step hs1.1 _)
        · obtain ⟨σ1, h1, h⟩ := bind_ok_inv h
          have hs1 := ihW _ _ _ hinv h1
          injection h with h
          subst h
          exact LStep_trans hs1 (emitCall_step hs1.1 _)
        · exact Except.noConfusion h

theorem getLast?_getElem? {α : Type} : ∀ (l : List α) (a : α),
    l.getLast? = some a → ∃ i : Nat, l[i]? = some a := by
  intro l
  induction l with
  | nil => intro a h; simp at h
  | cons x xs ih =>
      intro a h
      cases xs with
      | nil =>
          simp at h
          subst h
          exact ⟨0, rfl⟩
      | cons y ys =>
          rw [List.getLast?_cons_cons] at h
          obtain ⟨i, hi⟩ := ih a h
          exact ⟨i + 1, by simpa using hi⟩

/-- With the return flag clear and no `Return` in the body, `ensure_return`
appends exactly one `Return`, making every patched jump target strictly
in range. -/
theorem ensure_return_final {σ1 : LowerState} (hinv : Inv σ1)
    (hflag : σ1.return_emitted = false) :
    ∀ i : Nat, ∀ ins : Instr, (ensure_return σ1).instructions[i]? = some ins →
      (ins.op = .loadConst → ins.imm < (ensure_return σ1).pool.length) ∧
      (ins.op = .loadVar → ins.imm < (ensure_return σ1).pool.length) ∧
      (ins.op = .jump → ins.imm < (ensure_return σ1).instructions.length) ∧
      (ins.op = .jumpIfFalse →
        ins.imm < (ensure_return σ1).instructions.length) := by
  have hform : ensure_return σ1 =
      {emit σ1 (Instr.new .ret 0) with return_emitted := true} := by
    unfold ensure_return
    rw [hflag]
    simp only [Bool.false_eq_true, if_false]
    split
    · rfl
    · rename_i l hl
      have hne : ¬ l.op = .ret := by
        obtain ⟨i, hi⟩ := getLast?_getElem? σ1.instructions l hl
        exact (hinv i l hi).2.2.2.2
      rw [if_neg hne]
  rw [hform]
  intro i ins hins
  simp only [emit, List.length_append, List.length_singleton] at hins ⊢
  by_cases hcase : i < σ1.instructions.length
  · rw [List.getElem?_append_left hcase] at hins
    obtain ⟨h1, h2, h3, h4, _⟩ := hinv i ins hins
    exact ⟨h1, h2, fun e => by have := h3 e; omega,
      fun e => by have := h4 e; omega⟩
  · rw [List.getElem?_append_right (Nat.le_of_not_lt hcase)] at hins
    have hz : i - σ1.instructions.length = 0 := by
      by_contra hne
      rcases Nat.exists_eq_succ_of_ne_zero hne with ⟨m, hm⟩
      rw [hm] at hins
      simp at hins
    rw [hz] at hins
    simp at hins
    subst hins
    refine ⟨?_, ?_, ?_, ?_⟩ <;> intro e <;> exact absurd e (by simp [Instr.new])

/-- C6: in every successfully compiled program, each `LoadConst` / `LoadVar`
immediate is a valid constant-pool index, and each `Jump` / `JumpIfFalse`
immediate is a valid instruction index. -/
theorem claim_C6 (fuel : Nat) (node : ASTNode) (p : Program)
    (h : compile fuel node = .ok p) :
    ∀ i : Nat, ∀ ins : Instr, p.instructions[i]? = some ins →
      (ins.op = .loadConst → ins.imm < p.const_pool.length) ∧
      (ins.op = .loadVar → ins.imm < p.const_pool.length) ∧
      (ins.op = .jump → ins.imm < p.instructions.length) ∧
      (ins.op = .jumpIfFalse → ins.imm < p.instructions.length) := by
  unfold compile at h
  obtain ⟨σf, hl, h⟩ := bind_ok_inv h
  split at h
  · exact Except.noConfusion h
  · injection h with h
    subst h
    unfold lowerCompile at hl
    obtain ⟨σ1, hb, hl⟩ := bind_ok_inv hl
    injection hl with hl
    subst hl
    have hinv0 : Inv {(⟨[], [], false⟩ : LowerState) with
        return_emitted := false} := by
      intro i ins hins
      simp at hins
    have hs := (lower_inv fuel).1 _ _ _ hinv0 hb
    exact ensure_return_final hs.1 hs.2.2

/-- C6 witness: the if-chain `{"if": [true, 1, 2]}` compiles to a program
whose patched `JumpIfFalse 4` and `Jump 5` targets are valid indices of its
6 instructions, and whose `LoadConst` immediates index its 3-value pool. -/
theorem claim_C6_witness :
    (Instr.mk .jumpIfFalse 4).imm <
      ([⟨.loadConst, 0⟩, ⟨.jumpIfFalse, 4⟩, ⟨.loadConst, 1⟩, ⟨.jump, 5⟩,
        ⟨.loadConst, 2⟩, ⟨.ret, 0⟩] : List Instr).length ∧
    (Instr.mk .jump 5).imm <
      ([⟨.loadConst, 0⟩, ⟨.jumpIfFalse, 4⟩, ⟨.loadConst, 1⟩, ⟨.jump, 5⟩,
        ⟨.loadConst, 2⟩, ⟨.ret, 0⟩] : List Instr).length := by
  have h := claim_C6 3
    (.Operator .If (.ArrayLiteral [.bool true, .num (.int 1), .num (.int 2)]))
    ⟨[⟨.loadConst, 0⟩, ⟨.jumpIfFalse, 4⟩, ⟨.loadConst, 1⟩, ⟨.jump, 5⟩,
      ⟨.loadConst, 2⟩, ⟨.ret, 0⟩],
     [.bool true, .num (.int 1), .num (.int 2)]⟩ rfl
  exact ⟨(h 1 ⟨.jumpIfFalse, 4⟩ rfl).2.2.2 rfl, (h 3 ⟨.jump, 5⟩ rfl).2.2.1 rfl⟩

end Datalogic
